import Mathlib

/-!
Verification of the PyNAM spike encoding/decoding core (`pynam/binam_network.py`
and `pynam/utils.py`) against its natural-language specification.

Conventions of the shallow embedding:
* spike times are rationals (the floats of the source carry exact values here);
* numpy arrays with a fill pointer (`T`, `K`, `N` in `build_input`) are
  modelled as lists that grow by appending, which is exactly how the code
  uses them (each active sample appends one contiguous block of slots);
* `np.argsort` / `np.lexsort` are modelled by `List.insertionSort` with the
  corresponding key order (`np.lexsort((kF, tF))` sorts primarily by the
  *last* key `tF`, secondarily by `kF`); the numpy sort is unstable, so the
  relative order of exactly tied records is implementation defined -- the
  theorems below only use tie-robust facts, and the concrete inputs of the
  witnesses and counterexamples have no relevant ties;
* `bisect.bisect_left` / `bisect.bisect_right` are modelled by their
  specification on sorted sequences (the number of elements `< x`, resp.
  `≤ x`); every use in a settled claim is on a list that is sorted there;
* fallible code paths (a Python exception: `range` with zero step, `max`
  or `np.min` or `reduce` over an empty sequence, division by zero) are
  modelled by `Option`, with `none` for the raised exception.
-/

namespace PyNAM

/-- A flattened spike record `(time, sample index, neuron index)`, as produced
by `NetworkInstance.flaten`. -/
abbrev Spike : Type := ℚ × ℕ × ℕ

/-- Order on flattened spikes by time only (`np.argsort(tF)`). -/
def timeLE (a b : Spike) : Prop := a.1 ≤ b.1

instance : DecidableRel timeLE := fun a b => inferInstanceAs (Decidable (a.1 ≤ b.1))

instance : IsTotal Spike timeLE := ⟨fun a b => le_total a.1 b.1⟩

instance : IsTrans Spike timeLE := ⟨fun _ _ _ hab hbc => le_trans hab hbc⟩

/-- Order on flattened spikes by time, ties broken by sample index
(`np.lexsort((kF, tF))`: the last key `tF` is the primary one). -/
def lexLE (a b : Spike) : Prop := a.1 < b.1 ∨ (a.1 = b.1 ∧ a.2.1 ≤ b.2.1)

instance : DecidableRel lexLE := fun a b =>
  inferInstanceAs (Decidable (a.1 < b.1 ∨ (a.1 = b.1 ∧ a.2.1 ≤ b.2.1)))

instance : IsTotal Spike lexLE := by
  constructor
  intro a b
  rcases lt_trichotomy a.1 b.1 with h | h | h
  · exact Or.inl (Or.inl h)
  · rcases le_total a.2.1 b.2.1 with h2 | h2
    · exact Or.inl (Or.inr ⟨h, h2⟩)
    · exact Or.inr (Or.inr ⟨h.symm, h2⟩)
  · exact Or.inr (Or.inl h)

instance : IsTrans Spike lexLE := by
  constructor
  intro a b c hab hbc
  rcases hab with h1 | ⟨h1, h1k⟩
  · rcases hbc with h2 | ⟨h2, _⟩
    · exact Or.inl (lt_trans h1 h2)
    · exact Or.inl (h2 ▸ h1)
  · rcases hbc with h2 | ⟨h2, h2k⟩
    · exact Or.inl (h1 ▸ h2)
    · exact Or.inr ⟨h1.trans h2, le_trans h1k h2k⟩

/-- Row-major flattening of per-unit spike times and sample indices into
`(time, sample, neuron)` triples: the double loop of `NetworkInstance.flaten`
writing `tF`, `kF`, `nF`. -/
def flatPairs (times : List (List ℚ)) (indices : List (List ℕ)) : List Spike :=
  ((times.zip indices).enum.map (fun e =>
    (e.2.1.zip e.2.2).map (fun a => (a.1, a.2, e.1)))).flatten

/-- `NetworkInstance.flaten`: flatten the per-unit lists and sort, either by
spike time (`np.argsort(tF)`) or by time-then-sample (`np.lexsort((kF, tF))`).
`none` models the `TypeError` of `reduce` over the empty sequence when the
unit list itself is empty. -/
def flaten (times : List (List ℚ)) (indices : List (List ℕ))
    (sortBySample : Bool) : Option (List Spike) :=
  if times.isEmpty then none
  else if sortBySample then some (List.insertionSort lexLE (flatPairs times indices))
  else some (List.insertionSort timeLE (flatPairs times indices))

/-- The per-spike decode step of `NetworkInstance.match_static`:
`idx = bisect_left(tIn, t); if idx > 0: idx -= 1; if idx < len(tIn): kIn[idx]`,
with the initialisation value `0` kept when the pooled input is empty.
`L` is the pooled, time-sorted input spike list. -/
def matchIndex (L : List Spike) (t : ℚ) : ℕ :=
  let c0 := L.countP (fun a => decide (a.1 < t))
  let c := if 0 < c0 then c0 - 1 else c0
  match L.get? c with
  | some a => a.2.1
  | none => 0

/-- `NetworkInstance.match_static`: pool and time-sort the input spikes, slice
the raw simulation output after the input populations, and decode each output
spike through `matchIndex`. -/
def matchStatic (inputTimes : List (List ℚ)) (inputIndices : List (List ℕ))
    (output : List (List ℚ)) : Option (List (List ℚ) × List (List ℕ)) :=
  match flaten inputTimes inputIndices false with
  | none => none
  | some L =>
    let inputCount := inputTimes.length
    let outputCount := output.length - inputCount
    let outputTimes := (List.range outputCount).map
        (fun i => output.getD (i + inputCount) [])
    some (outputTimes, outputTimes.map (fun row => row.map (matchIndex L)))

/-- One row of `NetworkInstance.split`: keep the spikes whose sample index
lies in `[k0, k1)` and re-base the kept indices by `k0`. -/
def splitRow (ts : List ℚ) (ks : List ℕ) (k0 k1 : ℕ) : List ℚ × List ℕ :=
  let f := (ts.zip ks).filter (fun a => decide (k0 ≤ a.2) && decide (a.2 < k1))
  (f.map Prod.fst, f.map (fun a => a.2 - k0))

/-- `NetworkInstance.split` applied to all unit rows. -/
def splitSpikes (times : List (List ℚ)) (indices : List (List ℕ)) (k0 k1 : ℕ) :
    List (List ℚ) × List (List ℕ) :=
  ((times.zip indices).map (fun r => (splitRow r.1 r.2 k0 k1).1),
   (times.zip indices).map (fun r => (splitRow r.1 r.2 k0 k1).2))

/-- The spike content gathered for one demultiplexed experiment
(`NetworkAnalysis`). -/
structure NetworkAnalysis where
  inputTimes : List (List ℚ)
  inputIndices : List (List ℕ)
  outputTimes : List (List ℚ)
  outputIndices : List (List ℕ)
deriving DecidableEq, Repr

/-- The temporal-split loop at the end of `build_analysis_static`: cut the
matched spikes at the successive sample-index boundaries. -/
def splitFold (iT : List (List ℚ)) (iI : List (List ℕ))
    (oT : List (List ℚ)) (oI : List (List ℕ)) :
    ℕ → List ℕ → List NetworkAnalysis
  | _, [] => []
  | k0, k :: rest =>
    let ip := splitSpikes iT iI k0 k
    let op := splitSpikes oT oI k0 k
    ⟨ip.1, ip.2, op.1, op.2⟩ :: splitFold iT iI oT oI k rest

/-- `NetworkInstance.build_analysis_static`: match the output spikes, then cut
input and output spikes at the `input_split` boundaries.  With an empty split
descriptor the code computes `max(map(max, input_indices)) + 1`, which raises
when the unit list or any unit row is empty (`none` here). -/
def buildAnalysisStatic (inputTimes : List (List ℚ)) (inputIndices : List (List ℕ))
    (output : List (List ℚ)) (inputSplit : List ℕ) : Option (List NetworkAnalysis) :=
  match matchStatic inputTimes inputIndices output with
  | none => none
  | some r =>
    match (if inputSplit.isEmpty then
            (if inputIndices.isEmpty ∨ inputIndices.any (·.isEmpty) then none
             else some [(inputIndices.map (fun row => row.foldr max 0)).foldr max 0 + 1])
           else some inputSplit) with
    | none => none
    | some sp => some (splitFold inputTimes inputIndices r.1 r.2 0 sp)

/-- The data of one `NetworkInstance` that the pool bookkeeping uses: its
population count and its input spike data (`populations` beyond their count,
and `connections`, play no role in the demultiplexing). -/
structure NetworkInstanceData where
  pops : ℕ
  inputTimes : List (List ℚ)
  inputIndices : List (List ℕ)
  inputSplit : List ℕ
deriving DecidableEq

/-- The accumulated state of a `NetworkPool`: concatenated input spike data,
one `input_split` entry per added network and the running `spatial_split`
descriptors `(population count, input unit count)`. -/
structure NetworkPool where
  pops : ℕ
  inputTimes : List (List ℚ)
  inputIndices : List (List ℕ)
  inputSplits : List (List ℕ)
  spatialSplit : List (ℕ × ℕ)
deriving DecidableEq

/-- A pool constructed with no argument: every field starts empty, and the
constructor fix-up for a directly passed `NetworkInstance` does not fire. -/
def emptyPool : NetworkPool := ⟨0, [], [], [], []⟩

/-- `NetworkPool.add_network`: append the network's populations and input
spike data, record its `input_split`, and push a new spatial split descriptor
holding the new population and input counts. -/
def addNetwork (P : NetworkPool) (net : NetworkInstanceData) : NetworkPool :=
  let pops := P.pops + net.pops
  let inputTimes := P.inputTimes ++ net.inputTimes
  let inputIndices := P.inputIndices ++ net.inputIndices
  ⟨pops, inputTimes, inputIndices, P.inputSplits ++ [net.inputSplit],
   P.spatialSplit ++ [(pops, inputTimes.length)]⟩

/-- The loop body of `NetworkPool.build_analysis`: slice the pooled inputs and
the raw output at the spatial boundaries and hand each slice, together with
its temporal `input_split` descriptor, to `buildAnalysisStatic`.  A raised
exception anywhere aborts the whole call (`none`). -/
def poolGo (P : NetworkPool) (output : List (List ℚ)) :
    ℕ × ℕ → ℕ → List (ℕ × ℕ) → Option (List NetworkAnalysis)
  | _, _, [] => some []
  | last, i, sp :: rest =>
    let iT := (P.inputTimes.drop last.2).take (sp.2 - last.2)
    let iI := (P.inputIndices.drop last.2).take (sp.2 - last.2)
    let oPart := (output.drop last.1).take (sp.1 - last.1)
    match buildAnalysisStatic iT iI oPart (P.inputSplits.getD i []) with
    | none => none
    | some r =>
      match poolGo P output sp (i + 1) rest with
      | none => none
      | some rs => some (r ++ rs)

/-- `NetworkPool.build_analysis`: spatial demultiplexing over the recorded
`spatial_split` descriptors, temporal demultiplexing delegated per slice. -/
def poolBuildAnalysis (P : NetworkPool) (output : List (List ℚ)) :
    Option (List NetworkAnalysis) :=
  poolGo P output (0, 0) 0 P.spatialSplit

/-- One entry of `NetworkAnalysis.calculate_latencies`: for sample `k`,
`bisect_right` into the sample-sorted flattened arrays, validity checks, and
the time difference; `none` models the `np.inf` sentinel. -/
def latEntry (LIn LOut : List Spike) (k : ℕ) : Option ℚ :=
  let cI := LIn.countP (fun a => decide (a.2.1 ≤ k))
  let cO := LOut.countP (fun a => decide (a.2.1 ≤ k))
  if cI = 0 ∨ cO = 0 then none
  else
    match LIn.get? (cI - 1), LOut.get? (cO - 1) with
    | some aI, some aO =>
      if aI.2.1 = k ∧ aO.2.1 = k then some (aO.1 - aI.1) else none
    | _, _ => none

/-- `NetworkAnalysis.calculate_latencies`.  The outer `none` models the raised
exceptions: `reduce` over an empty unit list in `flaten`, and `np.max` over an
empty flattened `kIn`. -/
def calculateLatencies (a : NetworkAnalysis) : Option (List (Option ℚ)) :=
  match flaten a.inputTimes a.inputIndices true,
        flaten a.outputTimes a.outputIndices true with
  | some LIn, some LOut =>
    if LIn.isEmpty then none
    else
      let N := (LIn.map (fun x => x.2.1)).foldr max 0 + 1
      some ((List.range N).map (latEntry LIn LOut))
  | _, _ => none

/-- `NetworkAnalysis.calculate_output_matrix` with multiplicity `s` (from the
topology parameters) and `output_burst_size`.  For each sample `k` the code
counts the flattened output spikes between `bisect_left` and `bisect_right`
of `k` in `kOut`, bins them by `neuron index / s`, and finally divides by the
output burst size.  `none` models `max()` of the empty unit list and the
integer division by `s = 0`. -/
def calculateOutputMatrix (a : NetworkAnalysis) (s : ℕ) (outputBurst : ℚ) :
    Option (List (List ℚ)) :=
  match flaten a.outputTimes a.outputIndices true with
  | none => none
  | some LOut =>
    if a.inputIndices.isEmpty then none
    else if s = 0 then none
    else
      let N := (a.inputIndices.map (fun row => row.foldr max 0)).foldr max 0 + 1
      let n := a.outputIndices.length / s
      some ((List.range N).map (fun k =>
        let i0 := LOut.countP (fun x => decide (x.2.1 < k))
        let i1 := LOut.countP (fun x => decide (x.2.1 ≤ k))
        (List.range n).map (fun j =>
          (((((LOut.drop i0).take (i1 - i0)).countP
              (fun x => decide (x.2.2 / s = j))) : ℚ) / outputBurst))))

/-- Modelled from the spec: the `binam.BiNAM` weight matrix (`binam.py` is not
among the sources here).  Per §4.2 it is an `m × n` bit matrix, created all
zero, and `train x y` ORs in the outer product of the 0/1 vectors `x ⊗ y`;
a cell is set iff some training pair activated its row and column bit. -/
def BiNAM (m n : ℕ) : List (List Bool) := List.replicate m (List.replicate n false)

/-- Modelled from the spec: `BiNAM.train` — elementwise OR with the outer
product of one training pair. -/
def binamTrain (W : List (List Bool)) (x y : List ℕ) : List (List Bool) :=
  W.enum.map (fun ri =>
    ri.2.enum.map (fun cj =>
      cj.2 || (decide (x.getD ri.1 0 ≠ 0) && decide (y.getD cj.1 0 ≠ 0))))

/-- The training-relevant state of a `NetworkBuilder`: the data matrices, the
cached memory `mem` and the high-water mark `last_k`. -/
structure NetworkBuilder where
  matIn : List (List ℕ)
  matOut : List (List ℕ)
  m : ℕ
  n : ℕ
  mem : Option (List (List Bool))
  lastK : ℕ
deriving DecidableEq

/-- The `NetworkBuilder` constructor: data matrices stored, no cached memory,
`last_k = 0`. -/
def mkBuilder (matIn matOut : List (List ℕ)) (m n : ℕ) : NetworkBuilder :=
  ⟨matIn, matOut, m, n, none, 0⟩

/-- The memory-training part of `NetworkBuilder.build_topology`: normalise
`k`, re-create the memory when there is none or when `last_k > k`, then train
on the rows of `xrange(last_k, k)` (empty when `last_k ≥ k`), and advance
`last_k` to `k`.  The construction of neuron populations and connections is
backend glue outside this model. -/
def buildTopology (st : NetworkBuilder) (k : ℤ) : NetworkBuilder :=
  let N := st.matIn.length
  let kk := if k < 0 ∨ (N : ℤ) < k then N else k.toNat
  let mem0 := match st.mem with
    | none => BiNAM st.m st.n
    | some W => if kk < st.lastK then BiNAM st.m st.n else W
  let mem1 := (List.range' st.lastK (kk - st.lastK)).foldl
      (fun W l => binamTrain W (st.matIn.getD l []) (st.matOut.getD l [])) mem0
  { st with mem := some mem1, lastK := kk }

/-- The claim-side reference: the memory obtained by training a fresh `BiNAM`
row-by-row on samples `0 .. k-1`. -/
def trainedUpTo (matIn matOut : List (List ℕ)) (m n k : ℕ) : List (List Bool) :=
  (List.range k).foldl
    (fun W l => binamTrain W (matIn.getD l []) (matOut.getD l [])) (BiNAM m n)

/-- The state of the shared numpy random generator, abstracted to an opaque
token; `np.random.seed v` produces the state `npSeed v`. -/
structure RandomState where
  token : ℕ
deriving DecidableEq

/-- `np.random.seed` as a deterministic state constructor. -/
def npSeed (v : ℕ) : RandomState := ⟨v⟩

/-- `utils.initialize_seed`: with `seed = None` return `None` and leave the
generator alone; otherwise remember the old state, reseed with
`(seed * (seq + 1)) mod 2^30`, and return the old state. -/
def initializeSeed (seed : Option ℤ) (seq : ℤ) (s : RandomState) :
    Option RandomState × RandomState :=
  match seed with
  | none => (none, s)
  | some sd => (some s, npSeed ((sd * (seq + 1)) % (2 ^ 30)).toNat)

/-- `utils.finalize_seed`: restore the remembered state, or do nothing for
`None`. -/
def finalizeSeed (oldState : Option RandomState) (s : RandomState) : RandomState :=
  match oldState with
  | none => s
  | some o => o

/-- `InputParameters` (the keys of the parameter dict, with their defaults in
`defaultInput`). -/
structure InputParameters where
  burst_size : ℕ
  time_window : ℚ
  isi : ℚ
  sigma_t : ℚ
  sigma_t_offs : ℚ
deriving DecidableEq

/-- The documented defaults `burst_size=1, time_window=100.0, isi=1.0,
sigma_t=0.0, sigma_t_offs=0.0`. -/
def defaultInput : InputParameters := ⟨1, 100, 1, 0, 0⟩

/-- The plain order on rational spike times, for `np.sort` inside
`build_spike_train`. -/
def qLE (a b : ℚ) : Prop := a ≤ b

instance : DecidableRel qLE := fun a b => inferInstanceAs (Decidable (a ≤ b))

instance : IsTotal ℚ qLE := ⟨fun a b => le_total a b⟩

instance : IsTrans ℚ qLE := ⟨fun _ _ _ hab hbc => le_trans hab hbc⟩

/-- Order on `(time, sample)` pairs by time, for the per-unit
`np.argsort(T[x, 0:N[i]])`. -/
def pairLE (a b : ℚ × ℕ) : Prop := a.1 ≤ b.1

instance : DecidableRel pairLE := fun a b => inferInstanceAs (Decidable (a.1 ≤ b.1))

instance : IsTotal (ℚ × ℕ) pairLE := ⟨fun a b => le_total a.1 b.1⟩

instance : IsTrans (ℚ × ℕ) pairLE := ⟨fun _ _ _ hab hbc => le_trans hab hbc⟩

/-- `InputParameters.build_spike_train`: the values drawn from the shared
numpy generator are supplied by the oracle `R` at successive counter
positions (one draw for the burst offset when `sigma_t_offs > 0`, one per
spike when `sigma_t > 0`); the burst is sorted before being returned. -/
def buildSpikeTrain (p : InputParameters) (offs : ℚ) (R : ℕ → ℚ) (ctr : ℕ) :
    List ℚ × ℕ :=
  let oc : ℚ × ℕ := if 0 < p.sigma_t_offs then (R ctr, ctr + 1) else (offs, ctr)
  let raw := (List.range p.burst_size).map (fun (i : ℕ) =>
      oc.1 + (i : ℚ) * p.isi + (if 0 < p.sigma_t then R (oc.2 + i) else 0))
  let c2 := if 0 < p.sigma_t then oc.2 + p.burst_size else oc.2
  (List.insertionSort qLE raw, c2)

/-- The mutable state of the `build_input` loops: the per-unit-row spike
`(time, sample)` pairs written so far (rows grow by contiguous blocks, so the
fill-pointer arrays `T`, `K`, `N` are modelled by appending), the running
minimum `min_t` (`none` is `np.inf`), and the position of the shared random
generator. -/
structure EncState where
  rows : ℕ → List (ℚ × ℕ)
  minT : Option ℚ
  ctr : ℕ

/-- `np.min([min_t, np.min(train)])` as a fold over the train. -/
def updMin (mo : Option ℚ) (l : List ℚ) : Option ℚ :=
  l.foldl (fun acc t => match acc with
    | none => some t
    | some u => some (min u t)) mo

/-- The multiplicity loop for one active bit `(l, i)`: each of the `s`
redundant source rows receives its own freshly drawn burst. -/
def encodeUnit (p : InputParameters) (s : ℕ) (R : ℕ → ℚ) (i sIdx : ℕ) (t : ℚ)
    (st : EncState) : EncState :=
  (List.range s).foldl (fun st j =>
    let tr := buildSpikeTrain p t R st.ctr
    { rows := fun y =>
        if y = i * s + j then st.rows y ++ tr.1.map (fun tm => (tm, sIdx))
        else st.rows y,
      minT := updMin st.minT tr.1,
      ctr := tr.2 }) st

/-- The unit loop for one sample `l` at block offset `t`. -/
def encodeSample (p : InputParameters) (s m : ℕ) (R : ℕ → ℚ) (X : List (List ℕ))
    (l sIdx : ℕ) (t : ℚ) (st : EncState) : EncState :=
  (List.range m).foldl (fun st i =>
    if (X.getD l []).getD i 0 ≠ 0 then encodeUnit p s R i sIdx t st else st) st

/-- One input parameter set: iterate the samples `0 .. k-1`, advancing the
block offset by `time_window` per sample, then add the inter-block delay.
The threaded pair is `(block offset t, global sample counter sIdx)`. -/
def encodeBlock (p : InputParameters) (s m k : ℕ) (delay : ℚ) (R : ℕ → ℚ)
    (X : List (List ℕ)) (acc : EncState × ℚ × ℕ) : EncState × ℚ × ℕ :=
  let st1 := (List.range k).foldl (fun acc l =>
    (encodeSample p s m R X l acc.2.2 acc.2.1 acc.1,
     acc.2.1 + p.time_window, acc.2.2 + 1)) acc
  (st1.1, st1.2.1 + p.time_window * delay, st1.2.2)

/-- All parameter sets in order, starting from the empty state. -/
def encodeAll (params : List InputParameters) (s m k : ℕ) (delay : ℚ)
    (R : ℕ → ℚ) (X : List (List ℕ)) : EncState :=
  (params.foldl (fun acc p => encodeBlock p s m k delay R X acc)
    (⟨fun _ => [], none, 0⟩, 0, 0)).1

/-- The result triple of `build_input`: per-unit spike times, per-unit sample
indices, and the temporal split descriptor. -/
structure EncodeResult where
  times : List (List ℚ)
  indices : List (List ℕ)
  split : List ℕ
deriving DecidableEq

/-- `NetworkBuilder.build_input` for an explicit list of parameter sets.
`none` models the raised exceptions: `np.max` over the empty per-column sum
when `m = 0`, `range(k, k*(P+1), k)` with zero step when the normalised `k`
is `0`, and `np.min` over an empty burst when a parameter set with
`burst_size = 0` meets an active bit.  Otherwise: generate all bursts, shift
all times so the earliest emitted spike lands on `time_offs`, and sort each
unit row by time, carrying the sample indices along. -/
def buildInput (X : List (List ℕ)) (m s : ℕ) (k : ℤ) (timeOffs : ℚ)
    (params : List InputParameters) (delay : ℚ) (R : ℕ → ℚ) :
    Option EncodeResult :=
  let N := X.length
  let kk := if k < 0 ∨ (N : ℤ) < k then N else k.toNat
  if m = 0 then none
  else if kk = 0 then none
  else if (params.any (fun p => p.burst_size = 0)) ∧
          ((List.range kk).any (fun l =>
            (List.range m).any (fun i => (X.getD l []).getD i 0 ≠ 0))) then none
  else
    let st := encodeAll params s m kk delay R X
    let shift : ℚ → ℚ := fun tm =>
      match st.minT with
      | none => tm
      | some mt => tm - mt + timeOffs
    let rowsOf : ℕ → List (ℚ × ℕ) := fun x =>
      List.insertionSort pairLE ((st.rows x).map (fun a => (shift a.1, a.2)))
    some ⟨(List.range (s * m)).map (fun x => (rowsOf x).map Prod.fst),
          (List.range (s * m)).map (fun x => (rowsOf x).map Prod.snd),
          (List.range params.length).map (fun q => (q + 1) * kk)⟩

/-- The decode rule as the specification words it (§4.5): the sample index of
the most recent input spike at or before `t` over the pooled spikes, with the
inclusive left boundary; `none` when no input spike is at or before `t`.
Stated only to be compared against the behaviour of `matchIndex`. -/
def specMostRecentAtOrBefore (pairs : List (ℚ × ℕ)) (t : ℚ) : Option ℕ :=
  ((pairs.filter (fun a => decide (a.1 ≤ t))).argmax Prod.fst).map Prod.snd

/-- C10: `initialize_seed`/`finalize_seed` form a scoped save/restore pair:
restoring the returned state always recovers the exact prior generator state;
`seed = None` returns `None` and leaves the state unchanged; a concrete seed
reseeds with `(seed * (seq + 1)) mod 2^30` and returns the prior state; and
`finalize_seed None` changes nothing. -/
theorem C10_seed_roundtrip :
    ∀ (seed : Option ℤ) (seq : ℤ) (s : RandomState),
      finalizeSeed (initializeSeed seed seq s).1 (initializeSeed seed seq s).2 = s ∧
      initializeSeed none seq s = (none, s) ∧
      (∀ sd : ℤ, initializeSeed (some sd) seq s =
        (some s, npSeed ((sd * (seq + 1)) % (2 ^ 30)).toNat)) ∧
      finalizeSeed none s = s := by
  intro seed seq s
  refine ⟨?_, rfl, fun sd => rfl, rfl⟩
  cases seed <;> rfl

/-- C7: evaluating `build_topology` at the failing input.  After building with
`k = 2` and then re-building with the smaller `k = 1`, the cached memory is
the freshly reset all-zero matrix — the retraining loop `xrange(last_k, k)`
is empty because `last_k` was not reset — whereas a memory actually trained
up to sample 1 (as the docstring and the claim state) has its cell set. -/
theorem C7_retrain_bug :
    (buildTopology (buildTopology (mkBuilder [[1], [1]] [[1], [1]] 1 1) 2) 1).mem =
      some [[false]] ∧
    (buildTopology (buildTopology (mkBuilder [[1], [1]] [[1], [1]] 1 1) 2) 1).lastK = 1 ∧
    trainedUpTo [[1], [1]] [[1], [1]] 1 1 1 = [[true]] ∧
    some [[false]] ≠ (some [[true]] : Option (List (List Bool))) := by
  refine ⟨rfl, rfl, rfl, by decide⟩

/-- C1, counterexample: encode the 2×1 matrix `[[1],[1]]` with jitter
disabled and all defaults (`burst_size = 1`, `time_window = 100`,
`time_offs = 0`).  The encoder emits the spike at time 100 for sample 1, but
looking the time 100 up as an output spike time recovers sample 0: the
matcher's `bisect_left`-then-decrement steps over the inclusive boundary, so
the round trip does not recover the pairing exactly. -/
theorem C1_roundtrip_counterexample :
    buildInput [[1], [1]] 1 1 (-1) 0 [defaultInput] 10 (fun _ => 0) =
      some ⟨[[0, 100]], [[0, 1]], [2]⟩ ∧
    matchStatic [[0, 100]] [[0, 1]] [[], [0, 100]] =
      some ([[0, 100]], [[0, 0]]) ∧
    (0 : ℕ) ≠ 1 := by
  refine ⟨?_, rfl, by decide⟩
  norm_num [buildInput, encodeAll, encodeBlock, encodeSample, encodeUnit,
    buildSpikeTrain, updMin, defaultInput, List.range_succ, pairLE]

/-- C2, counterexample: pooled input spikes at times 0 and 100 with sample
indices 0 and 1; an output spike at exactly `t = 100`.  The specification's
rule (most recent input spike at or before `t`, inclusive boundary) selects
sample 1, but the code assigns sample 0: an input spike at exactly `t` does
not count as preceding in `match_static`. -/
theorem C2_boundary_counterexample :
    matchStatic [[0, 100]] [[0, 1]] [[], [100]] = some ([[100]], [[0]]) ∧
    specMostRecentAtOrBefore [(0, 0), (100, 1)] 100 = some 1 ∧
    (0 : ℕ) ≠ 1 := by
  refine ⟨rfl, by decide, by decide⟩

/-- C4, counterexample: with multiplicity `s = 2` and `burst_size = 1`, the
two neurons of the single logical output unit each fire once for sample 0.
The code's matrix entry is the raw spike count 2 divided by the burst size
only; the claim's value `2 / s / burst = 1` differs — `calculate_output_matrix`
never divides by the multiplicity. -/
theorem C4_multiplicity_counterexample :
    calculateOutputMatrix ⟨[[0]], [[0]], [[0], [0]], [[0], [0]]⟩ 2 1 =
      some [[2]] ∧
    (2 : ℚ) ≠ 2 / 2 / 1 := by
  constructor
  · norm_num [calculateOutputMatrix, flaten, flatPairs, lexLE, List.range_succ]
  · norm_num

/-- C6, counterexample: the single input spike is at time 10 with sample
index 5; an output spike at time 3 precedes every input spike.  The code
assigns the sample index of the earliest input spike (5), not the claimed
constant 0. -/
theorem C6_default_counterexample :
    matchStatic [[10]] [[5]] [[], [3]] = some ([[3]], [[5]]) ∧
    (5 : ℕ) ≠ 0 := by
  refine ⟨rfl, by decide⟩

/-- C9, counterexample: encoding a matrix with zero samples does not degrade
to an empty result — `build_input` raises (`range(k, k*(P+1), k)` with the
normalised `k = 0` has a zero step), modelled as `none`. -/
theorem C9_zero_samples_counterexample :
    buildInput ([] : List (List ℕ)) 1 1 (-1) 0 [defaultInput] 10 (fun _ => 0) =
      none := by
  rfl

/-- Zipping the two per-row results of `splitRow` recovers the filtered,
re-based pair list. -/
lemma splitRow_zip (ts : List ℚ) (ks : List ℕ) (k0 k1 : ℕ) :
    ((splitRow ts ks k0 k1).1).zip ((splitRow ts ks k0 k1).2) =
      ((ts.zip ks).filter (fun a => decide (k0 ≤ a.2) && decide (a.2 < k1))).map
        (fun a => (a.1, a.2 - k0)) := by
  unfold splitRow
  generalize (ts.zip ks).filter (fun a => decide (k0 ≤ a.2) && decide (a.2 < k1)) = f
  induction f with
  | nil => rfl
  | cons a t ih => simpa using ih

/-- C5: a pool built by appending two networks `A` and `B` demultiplexes the
concatenated simulation output into exactly the analyses that
`build_analysis_static` produces on `A`'s and `B`'s inputs and outputs
independently (including the error behaviour); and each temporal partition
keeps exactly the spikes whose sample index lies in `[k0, k1)`, re-based by
`k0`. -/
theorem C5_pool_partition (A B : NetworkInstanceData) (outA outB : List (List ℚ))
    (hA : outA.length = A.pops) (hB : outB.length = B.pops)
    (hAn : A.inputIndices.length = A.inputTimes.length)
    (hBn : B.inputIndices.length = B.inputTimes.length) :
    (poolBuildAnalysis (addNetwork (addNetwork emptyPool A) B) (outA ++ outB) =
      (match buildAnalysisStatic A.inputTimes A.inputIndices outA A.inputSplit,
             buildAnalysisStatic B.inputTimes B.inputIndices outB B.inputSplit with
       | some ra, some rb => some (ra ++ rb)
       | some _, none => none
       | none, _ => none)) ∧
    (∀ (ts : List ℚ) (ks : List ℕ) (k0 k1 : ℕ),
      ((splitRow ts ks k0 k1).1).zip ((splitRow ts ks k0 k1).2) =
        ((ts.zip ks).filter (fun a => decide (k0 ≤ a.2) && decide (a.2 < k1))).map
          (fun a => (a.1, a.2 - k0))) := by
  refine ⟨?_, fun ts ks k0 k1 => splitRow_zip ts ks k0 k1⟩
  have g1 : A.inputTimes.length + B.inputTimes.length - A.inputTimes.length =
      B.inputTimes.length := by omega
  have g2 : A.pops + B.pops - A.pops = B.pops := by omega
  have s1 : (A.inputTimes ++ B.inputTimes).take A.inputTimes.length = A.inputTimes :=
    List.take_left _ _
  have s2 : (A.inputIndices ++ B.inputIndices).take A.inputTimes.length = A.inputIndices :=
    List.take_left' hAn
  have s3 : (outA ++ outB).take A.pops = outA := List.take_left' hA
  have s4 : (A.inputTimes ++ B.inputTimes).drop A.inputTimes.length = B.inputTimes :=
    List.drop_left _ _
  have s5 : (A.inputIndices ++ B.inputIndices).drop A.inputTimes.length = B.inputIndices :=
    List.drop_left' hAn
  have s6 : (outA ++ outB).drop A.pops = outB := List.drop_left' hA
  have s7 : B.inputTimes.take B.inputTimes.length = B.inputTimes := by simp
  have s8 : B.inputIndices.take B.inputTimes.length = B.inputIndices := by
    rw [← hBn]; simp
  have s9 : outB.take B.pops = outB := by rw [← hB]; simp
  simp only [poolBuildAnalysis, addNetwork, emptyPool, List.nil_append, poolGo,
    List.drop_zero, Nat.sub_zero, Nat.zero_add, List.getD, List.get?_cons_zero,
    List.get?_cons_succ, Option.getD_some, g1, g2, s1, s2, s3, s4, s5, s6, s7, s8, s9]
  cases hcA : buildAnalysisStatic A.inputTimes A.inputIndices outA A.inputSplit with
  | none => simp [hcA]
  | some ra =>
    cases hcB : buildAnalysisStatic B.inputTimes B.inputIndices outB B.inputSplit with
    | none => simp [hcA, hcB, s8]
    | some rb => simp [hcA, hcB, s8]

/-- For a list in which the predicate `p` is downward closed along the list
order, position `i` satisfies `p` exactly when `i < countP p`: the `p`-part is
a prefix and `countP` is its length.  This is the specification of
`bisect_left`/`bisect_right` on a sorted sequence. -/
lemma countP_index_iff {α : Type} (p : α → Bool) :
    ∀ (L : List α), L.Pairwise (fun a b => p b = true → p a = true) →
      ∀ (i : ℕ) (h : i < L.length), (i < L.countP p ↔ p (L.get ⟨i, h⟩) = true)
  | [], _, i, h => absurd h (by simp)
  | x :: T, hdc, i, h => by
    have hT : T.Pairwise (fun a b => p b = true → p a = true) := hdc.of_cons
    have hhead : ∀ b ∈ T, p b = true → p x = true := (List.pairwise_cons.mp hdc).1
    rw [List.countP_cons]
    cases i with
    | zero =>
      show 0 < T.countP p + _ ↔ p x = true
      by_cases hpx : p x = true
      · rw [if_pos hpx]
        constructor
        · intro _; exact hpx
        · intro _; omega
      · have hTz : T.countP p = 0 := by
          rw [List.countP_eq_zero]
          intro b hb hpb
          exact hpx (hhead b hb hpb)
        rw [if_neg hpx, hTz]
        constructor
        · intro hcon; omega
        · intro hcon; exact absurd hcon hpx
    | succ j =>
      have hj : j < T.length := by simpa using h
      have hgets : (x :: T).get ⟨j + 1, h⟩ = T.get ⟨j, hj⟩ := rfl
      rw [hgets]
      by_cases hpx : p x = true
      · rw [if_pos hpx, Nat.succ_lt_succ_iff]
        exact countP_index_iff p T hT j hj
      · have hTz : T.countP p = 0 := by
          rw [List.countP_eq_zero]
          intro b hb hpb
          exact hpx (hhead b hb hpb)
        rw [if_neg hpx, hTz]
        constructor
        · intro hcon; omega
        · intro hg
          exact absurd (hpx (hhead _ (T.get_mem _ _) hg)) (fun hf => hf)

/-- Membership with `p` forces a positive `countP p` (downward-closed `p`). -/
lemma countP_pos_of_mem {α : Type} (p : α → Bool) (L : List α)
    (hdc : L.Pairwise (fun a b => p b = true → p a = true))
    (a : α) (ha : a ∈ L) (hpa : p a = true) : 0 < L.countP p := by
  rcases List.get_of_mem ha with ⟨⟨i, hi⟩, rfl⟩
  have := (countP_index_iff p L hdc i hi).mpr hpa
  omega

/-- Every `flaten` result with time-only sorting is sorted by spike time. -/
lemma flaten_sorted_time (times : List (List ℚ)) (indices : List (List ℕ))
    (L : List Spike) (h : flaten times indices false = some L) :
    L.Sorted timeLE := by
  unfold flaten at h
  by_cases he : times.isEmpty
  · simp [he] at h
  · simp only [he, Bool.false_eq_true, if_false, Option.some_inj] at h
    rw [← h]
    exact List.sorted_insertionSort timeLE (flatPairs times indices)

/-- Zeta-expanded form of `matchIndex`. -/
lemma matchIndex_eq (L : List Spike) (t : ℚ) :
    matchIndex L t =
      match L.get? (if 0 < L.countP (fun a : Spike => decide (a.1 < t))
                    then L.countP (fun a : Spike => decide (a.1 < t)) - 1
                    else L.countP (fun a : Spike => decide (a.1 < t))) with
      | some a => a.2.1
      | none => 0 := rfl

/-- The sorted-prefix specification of the decode step `matchIndex` on a
time-sorted pooled list: the result is the sample index of an actual pooled
spike; when some input spike is strictly before `t` it is one at the latest
such time; otherwise it is one at the globally earliest time. -/
lemma matchIndex_spec (L : List Spike) (hs : L.Sorted timeLE) (t : ℚ)
    (hne : L ≠ []) :
    ∃ a ∈ L, matchIndex L t = a.2.1 ∧
      ((∃ b ∈ L, b.1 < t) → a.1 < t ∧ ∀ b ∈ L, b.1 < t → b.1 ≤ a.1) ∧
      ((∀ b ∈ L, t ≤ b.1) → ∀ b ∈ L, a.1 ≤ b.1) := by
  have hconv : ∀ x : Spike, ((fun a : Spike => decide (a.1 < t)) x = true) ↔ x.1 < t := by
    intro x
    simp
  have hdc : L.Pairwise (fun a b =>
      (fun x : Spike => decide (x.1 < t)) b = true →
      (fun x : Spike => decide (x.1 < t)) a = true) := by
    refine hs.imp ?_
    intro a b hab
    rw [hconv, hconv]
    intro hb
    exact lt_of_le_of_lt hab hb
  have hlen : 0 < L.length := List.length_pos.mpr hne
  by_cases hc0 : 0 < L.countP (fun a : Spike => decide (a.1 < t))
  · have hcle : L.countP (fun a : Spike => decide (a.1 < t)) ≤ L.length :=
      L.countP_le_length _
    have hidx : L.countP (fun a : Spike => decide (a.1 < t)) - 1 < L.length := by omega
    refine ⟨L.get ⟨L.countP (fun a : Spike => decide (a.1 < t)) - 1, hidx⟩,
      L.get_mem _ _, ?_, ?_, ?_⟩
    · rw [matchIndex_eq, if_pos hc0, List.get?_eq_get hidx]
    · intro _
      have hpa := (countP_index_iff _ L hdc _ hidx).mp (by omega)
      rw [hconv] at hpa
      refine ⟨hpa, ?_⟩
      intro b hb hbt
      rcases List.get_of_mem hb with ⟨⟨j, hjl⟩, rfl⟩
      have hj : j < L.countP (fun a : Spike => decide (a.1 < t)) :=
        (countP_index_iff _ L hdc j hjl).mpr ((hconv _).mpr hbt)
      rcases Nat.lt_or_ge j (L.countP (fun a : Spike => decide (a.1 < t)) - 1) with hlt | hge
      · exact hs.rel_get_of_lt (by simpa using hlt)
      · have hje : j = L.countP (fun a : Spike => decide (a.1 < t)) - 1 := by omega
        subst hje
        exact le_refl _
    · intro hall
      have hpa := (countP_index_iff _ L hdc _ hidx).mp (by omega)
      rw [hconv] at hpa
      have h1 : t ≤ (L.get ⟨L.countP (fun a : Spike => decide (a.1 < t)) - 1, hidx⟩).1 :=
        hall _ (L.get_mem _ _)
      exact absurd h1 (not_le.mpr hpa)
  · have hz : L.countP (fun a : Spike => decide (a.1 < t)) = 0 := by omega
    refine ⟨L.get ⟨0, hlen⟩, L.get_mem _ _, ?_, ?_, ?_⟩
    · rw [matchIndex_eq, if_neg hc0, hz, List.get?_eq_get hlen]
    · intro ⟨b, hb, hbt⟩
      exact absurd (countP_pos_of_mem _ L hdc b hb ((hconv _).mpr hbt)) hc0
    · intro _ b hb
      rcases List.get_of_mem hb with ⟨⟨j, hjl⟩, rfl⟩
      rcases Nat.eq_zero_or_pos j with rfl | hj
      · exact le_refl _
      · exact hs.rel_get_of_lt (by simpa using hj)

/-- Zeta-expanded form of a successful `matchStatic`. -/
lemma matchStatic_eq_some (inputTimes : List (List ℚ)) (inputIndices : List (List ℕ))
    (output : List (List ℚ)) (L : List Spike)
    (hL : flaten inputTimes inputIndices false = some L) :
    matchStatic inputTimes inputIndices output =
      some ((List.range (output.length - inputTimes.length)).map
              (fun i => output.getD (i + inputTimes.length) []),
            ((List.range (output.length - inputTimes.length)).map
              (fun i => output.getD (i + inputTimes.length) [])).map
              (fun row => row.map (matchIndex L))) := by
  unfold matchStatic
  rw [hL]

/-- C2 (amended): for every decode call with at least one pooled input spike,
the sample index assigned to an output spike at time `t` is the sample index
of a pooled input spike at the *latest time strictly before* `t` (a spike at
exactly `t` does not count as preceding); when no input spike is strictly
before `t`, it is the sample index of a pooled input spike at the globally
earliest time. -/
theorem C2_amended_strictly_before
    (inputTimes : List (List ℚ)) (inputIndices : List (List ℕ))
    (output : List (List ℚ)) (L : List Spike)
    (hL : flaten inputTimes inputIndices false = some L) (hne : L ≠ [])
    (r : List (List ℚ) × List (List ℕ))
    (hm : matchStatic inputTimes inputIndices output = some r) :
    r.2 = r.1.map (fun row => row.map (matchIndex L)) ∧
    ∀ t : ℚ, ∃ a ∈ L, matchIndex L t = a.2.1 ∧
      ((∃ b ∈ L, b.1 < t) → a.1 < t ∧ ∀ b ∈ L, b.1 < t → b.1 ≤ a.1) ∧
      ((∀ b ∈ L, t ≤ b.1) → ∀ b ∈ L, a.1 ≤ b.1) := by
  constructor
  · rw [matchStatic_eq_some inputTimes inputIndices output L hL] at hm
    obtain rfl := Option.some_inj.mp hm
    rfl
  · intro t
    exact matchIndex_spec L (flaten_sorted_time _ _ _ hL) t hne

/-- C2 amended, witness: pooled input spikes at times 0 and 100 with samples
0 and 1; the output spike at time 50 is assigned sample 0, the spike at the
latest time strictly before 50. -/
theorem C2_amended_witness :
    flaten [[0, 100]] [[0, 1]] false = some [((0 : ℚ), 0, 0), (100, 1, 0)] ∧
    matchStatic [[0, 100]] [[0, 1]] [[], [50]] = some ([[50]], [[0]]) ∧
    (([[50]], [[0]]) : List (List ℚ) × List (List ℕ)).2 =
        (([[50]], [[0]]) : List (List ℚ) × List (List ℕ)).1.map
          (fun row => row.map (matchIndex [((0 : ℚ), 0, 0), (100, 1, 0)])) ∧
    ∀ t : ℚ, ∃ a ∈ [((0 : ℚ), 0, 0), (100, 1, 0)],
      matchIndex [((0 : ℚ), 0, 0), (100, 1, 0)] t = a.2.1 ∧
      ((∃ b ∈ [((0 : ℚ), 0, 0), (100, 1, 0)], b.1 < t) →
        a.1 < t ∧ ∀ b ∈ [((0 : ℚ), 0, 0), (100, 1, 0)], b.1 < t → b.1 ≤ a.1) ∧
      ((∀ b ∈ [((0 : ℚ), 0, 0), (100, 1, 0)], t ≤ b.1) →
        ∀ b ∈ [((0 : ℚ), 0, 0), (100, 1, 0)], a.1 ≤ b.1) := by
  refine ⟨rfl, rfl, ?_, ?_⟩
  · exact (C2_amended_strictly_before [[0, 100]] [[0, 1]] [[], [50]]
      [((0 : ℚ), 0, 0), (100, 1, 0)] rfl (by decide) ([[50]], [[0]]) rfl).1
  · exact (C2_amended_strictly_before [[0, 100]] [[0, 1]] [[], [50]]
      [((0 : ℚ), 0, 0), (100, 1, 0)] rfl (by decide) ([[50]], [[0]]) rfl).2

/-- C6 (amended): a decode call with at least one input unit row never fails:
it always returns a result.  An output spike at or before every pooled input
spike is assigned the sample index of a pooled spike at the globally earliest
time (not the constant 0); only when the unit rows contain no spikes at all is
the initialisation value 0 kept. -/
theorem C6_amended_default
    (inputTimes : List (List ℚ)) (inputIndices : List (List ℕ))
    (output : List (List ℚ)) (hne : inputTimes ≠ []) :
    ∃ r, matchStatic inputTimes inputIndices output = some r ∧
      ∀ L, flaten inputTimes inputIndices false = some L →
        (L = [] → ∀ t : ℚ, matchIndex L t = 0) ∧
        (L ≠ [] → ∀ t : ℚ, (∀ b ∈ L, t ≤ b.1) →
          ∃ a ∈ L, matchIndex L t = a.2.1 ∧ ∀ b ∈ L, a.1 ≤ b.1) := by
  have hL : flaten inputTimes inputIndices false =
      some (List.insertionSort timeLE (flatPairs inputTimes inputIndices)) := by
    unfold flaten
    rw [if_neg (by simpa [List.isEmpty_iff] using hne)]
    rfl
  refine ⟨_, matchStatic_eq_some _ _ _ _ hL, ?_⟩
  intro L2 hL2
  rw [hL] at hL2
  obtain rfl := Option.some_inj.mp hL2
  constructor
  · intro hnil t
    rw [hnil]
    rfl
  · intro hne2 t hall
    obtain ⟨a, ham, hval, _, hmin⟩ :=
      matchIndex_spec _ (flaten_sorted_time _ _ _ hL) t hne2
    exact ⟨a, ham, hval, hmin hall⟩

/-- C6 amended, witness: input spike at time 10 with sample 5; the output
spike at time 3 precedes it and is assigned 5, the sample of the earliest
pooled spike. -/
theorem C6_amended_witness :
    ([[(10 : ℚ)]] : List (List ℚ)) ≠ [] ∧
    ∃ r, matchStatic [[10]] [[5]] [[], [3]] = some r ∧
      ∀ L, flaten [[10]] [[5]] false = some L →
        (L = [] → ∀ t : ℚ, matchIndex L t = 0) ∧
        (L ≠ [] → ∀ t : ℚ, (∀ b ∈ L, t ≤ b.1) →
          ∃ a ∈ L, matchIndex L t = a.2.1 ∧ ∀ b ∈ L, a.1 ≤ b.1) :=
  ⟨by decide, C6_amended_default [[10]] [[5]] [[], [3]] (by decide)⟩

/-- C5, witness: two one-input-unit one-output-unit networks with one spike
each; the pooled analysis equals the concatenation of the two independent
analyses. -/
theorem C5_pool_partition_witness :
    ([([] : List ℚ), [5]].length = (2 : ℕ)) ∧
    ([([] : List ℚ), [15]].length = (2 : ℕ)) ∧
    (poolBuildAnalysis
        (addNetwork (addNetwork emptyPool ⟨2, [[0]], [[0]], [1]⟩)
          ⟨2, [[10]], [[0]], [1]⟩)
        ([[], [5]] ++ [[], [15]]) =
      (match buildAnalysisStatic [[0]] [[0]] [[], [5]] [1],
             buildAnalysisStatic [[10]] [[0]] [[], [15]] [1] with
       | some ra, some rb => some (ra ++ rb)
       | some _, none => none
       | none, _ => none)) :=
  ⟨rfl, rfl,
    (C5_pool_partition ⟨2, [[0]], [[0]], [1]⟩ ⟨2, [[10]], [[0]], [1]⟩
      [[], [5]] [[], [15]] rfl rfl rfl rfl).1⟩

/-- Flattening unit rows that are all empty yields no spikes. -/
lemma flatPairs_all_nil (times : List (List ℚ)) (indices : List (List ℕ))
    (h : ∀ row ∈ times, row = ([] : List ℚ)) : flatPairs times indices = [] := by
  unfold flatPairs
  rw [List.flatten_eq_nil_iff]
  intro x hx
  simp only [List.mem_map] at hx
  obtain ⟨e, he, rfl⟩ := hx
  have h2 : e.2 ∈ times.zip indices := by
    rw [List.mem_enum_iff_getElem?] at he
    exact List.getElem?_mem he
  have h3 : e.2.1 ∈ times := (List.of_mem_zip h2).1
  rw [h e.2.1 h3]
  rfl

/-- `getD` on a replicated list with the replicated element as default. -/
lemma getD_replicate_self {α : Type} (n j : ℕ) (a : α) :
    (List.replicate n a).getD j a = a := by
  induction n generalizing j with
  | zero => cases j <;> rfl
  | succ k ih =>
    cases j with
    | zero => rfl
    | succ j2 => exact ih j2

/-- Splitting all-empty unit rows returns all-empty unit rows. -/
lemma splitSpikes_replicate_nil (m k0 k1 : ℕ) :
    splitSpikes (List.replicate m ([] : List ℚ)) (List.replicate m ([] : List ℕ)) k0 k1 =
      (List.replicate m [], List.replicate m []) := by
  have hz : (List.replicate m ([] : List ℚ)).zip (List.replicate m ([] : List ℕ)) =
      List.replicate m (([] : List ℚ), ([] : List ℕ)) := by
    induction m with
    | zero => rfl
    | succ k ih => simp [List.replicate, ih]
  unfold splitSpikes
  rw [hz, List.map_replicate, List.map_replicate]
  rfl

/-- Temporal splitting of all-empty spike data yields one all-empty analysis
per boundary. -/
lemma splitFold_replicate_nil (m no : ℕ) :
    ∀ (ks : List ℕ) (k0 : ℕ),
      splitFold (List.replicate m []) (List.replicate m [])
          (List.replicate no []) (List.replicate no []) k0 ks =
        ks.map (fun _ => ⟨List.replicate m [], List.replicate m [],
          List.replicate no [], List.replicate no []⟩)
  | [], _ => rfl
  | k :: rest, k0 => by
    rw [splitFold, List.map_cons]
    rw [splitFold_replicate_nil m no rest k]
    simp [splitSpikes_replicate_nil]

/-- C9 (amended): matching, temporal splitting and analysis building degrade
to empty results on all-empty per-unit spike lists, provided at least one
input unit row exists and an explicit nonempty split descriptor is given; but
encoding with zero samples raises an error rather than returning an empty
result (see the counterexample). -/
theorem C9_empty_amended (m no : ℕ) (hm : 0 < m) (ks : List ℕ) (hks : ks ≠ []) :
    matchStatic (List.replicate m []) (List.replicate m [])
        (List.replicate (m + no) []) =
      some (List.replicate no [], List.replicate no []) ∧
    (∀ k0 k1 : ℕ,
      splitSpikes (List.replicate m ([] : List ℚ))
          (List.replicate m ([] : List ℕ)) k0 k1 =
        (List.replicate m [], List.replicate m [])) ∧
    buildAnalysisStatic (List.replicate m []) (List.replicate m [])
        (List.replicate (m + no) []) ks =
      some (ks.map (fun _ => ⟨List.replicate m [], List.replicate m [],
        List.replicate no [], List.replicate no []⟩)) := by
  have hfp : flatPairs (List.replicate m []) (List.replicate m []) = [] :=
    flatPairs_all_nil _ _ (fun row hr => List.eq_of_mem_replicate hr)
  have hL : flaten (List.replicate m []) (List.replicate m []) false =
      some ([] : List Spike) := by
    unfold flaten
    rw [if_neg (by simp [List.isEmpty_iff, List.replicate_eq_nil_iff]; omega), hfp]
    rfl
  have hrows : ((List.range ((List.replicate (m + no) ([] : List ℚ)).length -
      (List.replicate m ([] : List ℚ)).length)).map
        (fun i => (List.replicate (m + no) ([] : List ℚ)).getD
          (i + (List.replicate m ([] : List ℚ)).length) [])) =
      List.replicate no ([] : List ℚ) := by
    rw [List.length_replicate, List.length_replicate]
    have harith : m + no - m = no := by omega
    rw [harith]
    rw [List.eq_replicate_iff]
    constructor
    · simp
    · intro b hb
      simp only [List.mem_map] at hb
      obtain ⟨i, _, rfl⟩ := hb
      exact getD_replicate_self _ _ _
  have hms : matchStatic (List.replicate m []) (List.replicate m [])
      (List.replicate (m + no) []) =
      some (List.replicate no [], List.replicate no []) := by
    rw [matchStatic_eq_some _ _ _ _ hL]
    rw [hrows]
    rw [List.map_replicate]
    rfl
  refine ⟨hms, fun k0 k1 => splitSpikes_replicate_nil m k0 k1, ?_⟩
  unfold buildAnalysisStatic
  rw [hms]
  rw [if_neg (by simpa [List.isEmpty_iff] using hks)]
  exact congrArg some (splitFold_replicate_nil m no ks 0)

/-- C9 amended, witness: one empty input unit, one empty output unit, split
descriptor `[3]`: matching, splitting and analysis all return empty content. -/
theorem C9_empty_amended_witness :
    0 < 1 ∧ ([3] : List ℕ) ≠ [] ∧
    (matchStatic (List.replicate 1 []) (List.replicate 1 [])
        (List.replicate (1 + 1) []) =
      some (List.replicate 1 [], List.replicate 1 []) ∧
    (∀ k0 k1 : ℕ,
      splitSpikes (List.replicate 1 ([] : List ℚ))
          (List.replicate 1 ([] : List ℕ)) k0 k1 =
        (List.replicate 1 [], List.replicate 1 [])) ∧
    buildAnalysisStatic (List.replicate 1 []) (List.replicate 1 [])
        (List.replicate (1 + 1) []) [3] =
      some ([3].map (fun _ => ⟨List.replicate 1 [], List.replicate 1 [],
        List.replicate 1 [], List.replicate 1 []⟩))) :=
  ⟨by decide, by decide, C9_empty_amended 1 1 (by decide) [3] (by decide)⟩

/-- Every `flaten` result with sample-tiebreak sorting is sorted by `lexLE`
(primary key: time). -/
lemma flaten_sorted_lex (times : List (List ℚ)) (indices : List (List ℕ))
    (L : List Spike) (h : flaten times indices true = some L) :
    L.Sorted lexLE := by
  unfold flaten at h
  by_cases he : times.isEmpty
  · simp [he] at h
  · simp only [he, Bool.false_eq_true, if_false, if_true, Option.some_inj] at h
    rw [← h]
    exact List.sorted_insertionSort lexLE (flatPairs times indices)

/-- `lexLE`-sorted lists are sorted by time. -/
lemma Sorted.timeLE_of_lexLE {L : List Spike} (hs : L.Sorted lexLE) :
    L.Sorted timeLE := by
  refine hs.imp ?_
  intro a b hab
  rcases hab with h | ⟨h, _⟩
  · exact le_of_lt h
  · exact le_of_eq h

/-- Zeta-expanded form of `latEntry`. -/
lemma latEntry_eq (LIn LOut : List Spike) (k : ℕ) :
    latEntry LIn LOut k =
      (if LIn.countP (fun a : Spike => decide (a.2.1 ≤ k)) = 0 ∨
          LOut.countP (fun a : Spike => decide (a.2.1 ≤ k)) = 0 then none
       else
        match LIn.get? (LIn.countP (fun a : Spike => decide (a.2.1 ≤ k)) - 1),
              LOut.get? (LOut.countP (fun a : Spike => decide (a.2.1 ≤ k)) - 1) with
        | some aI, some aO =>
          if aI.2.1 = k ∧ aO.2.1 = k then some (aO.1 - aI.1) else none
        | _, _ => none) := rfl

/-- The `bisect_right`-into-the-latest-block specification for one side of
the latency computation: on a time-sorted list whose sample keys are
non-decreasing, position `countP (key ≤ k) - 1` carries sample `k` exactly
when sample `k` occurs at all, and in that case it carries the latest spike
time of sample `k`. -/
lemma sampleBlock_spec (L : List Spike) (hs : L.Sorted lexLE)
    (hMono : L.Pairwise (fun x y => x.2.1 ≤ y.2.1)) (k : ℕ) :
    (L.countP (fun a : Spike => decide (a.2.1 ≤ k)) = 0 →
      ¬ ∃ b ∈ L, b.2.1 = k) ∧
    ∀ (h : L.countP (fun a : Spike => decide (a.2.1 ≤ k)) - 1 < L.length),
      0 < L.countP (fun a : Spike => decide (a.2.1 ≤ k)) →
      (((L.get ⟨L.countP (fun a : Spike => decide (a.2.1 ≤ k)) - 1, h⟩).2.1 = k ↔
          ∃ b ∈ L, b.2.1 = k) ∧
        (∀ b ∈ L, b.2.1 = k →
          b.1 ≤ (L.get ⟨L.countP (fun a : Spike => decide (a.2.1 ≤ k)) - 1, h⟩).1)) := by
  have hconv : ∀ x : Spike,
      ((fun a : Spike => decide (a.2.1 ≤ k)) x = true) ↔ x.2.1 ≤ k := by
    intro x
    simp
  have hdc : L.Pairwise (fun a b =>
      (fun x : Spike => decide (x.2.1 ≤ k)) b = true →
      (fun x : Spike => decide (x.2.1 ≤ k)) a = true) := by
    refine hMono.imp ?_
    intro a b hab
    rw [hconv, hconv]
    intro hb
    exact le_trans hab hb
  have hst : L.Sorted timeLE := Sorted.timeLE_of_lexLE hs
  constructor
  · intro hz ⟨b, hb, hbk⟩
    have : 0 < L.countP (fun a : Spike => decide (a.2.1 ≤ k)) :=
      countP_pos_of_mem _ L hdc b hb ((hconv _).mpr (le_of_eq hbk))
    omega
  · intro h hpos
    have hgetk := (countP_index_iff _ L hdc _ h).mp (by omega)
    rw [hconv] at hgetk
    constructor
    · constructor
      · intro hk
        exact ⟨_, L.get_mem _ _, hk⟩
      · intro ⟨b, hb, hbk⟩
        rcases List.get_of_mem hb with ⟨⟨j, hjl⟩, rfl⟩
        have hj : j < L.countP (fun a : Spike => decide (a.2.1 ≤ k)) :=
          (countP_index_iff _ L hdc j hjl).mpr ((hconv _).mpr (le_of_eq hbk))
        have hkey : (L.get ⟨j, hjl⟩).2.1 ≤
            (L.get ⟨L.countP (fun a : Spike => decide (a.2.1 ≤ k)) - 1, h⟩).2.1 := by
          rcases Nat.lt_or_ge j (L.countP (fun a : Spike => decide (a.2.1 ≤ k)) - 1) with
            hlt | hge
          · exact List.pairwise_iff_get.mp hMono _ _ (by simpa using hlt)
          · have hje : j = L.countP (fun a : Spike => decide (a.2.1 ≤ k)) - 1 := by omega
            subst hje
            exact le_refl _
        omega
    · intro b hb hbk
      rcases List.get_of_mem hb with ⟨⟨j, hjl⟩, rfl⟩
      have hj : j < L.countP (fun a : Spike => decide (a.2.1 ≤ k)) :=
        (countP_index_iff _ L hdc j hjl).mpr ((hconv _).mpr (le_of_eq hbk))
      rcases Nat.lt_or_ge j (L.countP (fun a : Spike => decide (a.2.1 ≤ k)) - 1) with
        hlt | hge
      · exact List.pairwise_iff_get.mp hst _ _ (by simpa using hlt)
      · have hje : j = L.countP (fun a : Spike => decide (a.2.1 ≤ k)) - 1 := by omega
        subst hje
        exact le_refl _

/-- Per-sample specification of `latEntry` under sample-monotone, causally
consistent flattened spikes. -/
lemma latEntry_spec (LIn LOut : List Spike)
    (hsIn : LIn.Sorted lexLE) (hsOut : LOut.Sorted lexLE)
    (hMonoIn : LIn.Pairwise (fun x y => x.2.1 ≤ y.2.1))
    (hMonoOut : LOut.Pairwise (fun x y => x.2.1 ≤ y.2.1))
    (hCausal : ∀ bi ∈ LIn, ∀ bo ∈ LOut, bi.2.1 = bo.2.1 → bi.1 ≤ bo.1)
    (k : ℕ) :
    (latEntry LIn LOut k = none ↔
      ¬((∃ b ∈ LIn, b.2.1 = k) ∧ (∃ b ∈ LOut, b.2.1 = k))) ∧
    (∀ gap : ℚ, latEntry LIn LOut k = some gap →
      (∃ bi ∈ LIn, ∃ bo ∈ LOut, bi.2.1 = k ∧ bo.2.1 = k ∧
        gap = bo.1 - bi.1 ∧
        (∀ b ∈ LIn, b.2.1 = k → b.1 ≤ bi.1) ∧
        (∀ b ∈ LOut, b.2.1 = k → b.1 ≤ bo.1)) ∧ 0 ≤ gap) := by
  obtain ⟨hzI, hblockI⟩ := sampleBlock_spec LIn hsIn hMonoIn k
  obtain ⟨hzO, hblockO⟩ := sampleBlock_spec LOut hsOut hMonoOut k
  by_cases hI : LIn.countP (fun a : Spike => decide (a.2.1 ≤ k)) = 0
  · rw [latEntry_eq, if_pos (Or.inl hI)]
    refine ⟨⟨fun _ => ?_, fun _ => rfl⟩, fun gap hgap => absurd hgap (by simp)⟩
    intro ⟨hA, _⟩
    exact hzI hI hA
  · by_cases hO : LOut.countP (fun a : Spike => decide (a.2.1 ≤ k)) = 0
    · rw [latEntry_eq, if_pos (Or.inr hO)]
      refine ⟨⟨fun _ => ?_, fun _ => rfl⟩, fun gap hgap => absurd hgap (by simp)⟩
      intro ⟨_, hB⟩
      exact hzO hO hB
    · have hIpos : 0 < LIn.countP (fun a : Spike => decide (a.2.1 ≤ k)) := by omega
      have hOpos : 0 < LOut.countP (fun a : Spike => decide (a.2.1 ≤ k)) := by omega
      have hIlt : LIn.countP (fun a : Spike => decide (a.2.1 ≤ k)) - 1 < LIn.length := by
        have := LIn.countP_le_length (fun a : Spike => decide (a.2.1 ≤ k))
        omega
      have hOlt : LOut.countP (fun a : Spike => decide (a.2.1 ≤ k)) - 1 < LOut.length := by
        have := LOut.countP_le_length (fun a : Spike => decide (a.2.1 ≤ k))
        omega
      obtain ⟨hiffI, hmaxI⟩ := hblockI hIlt hIpos
      obtain ⟨hiffO, hmaxO⟩ := hblockO hOlt hOpos
      rw [latEntry_eq, if_neg (by omega), List.get?_eq_get hIlt, List.get?_eq_get hOlt]
      dsimp only
      by_cases hkeys : (LIn.get ⟨LIn.countP (fun a : Spike => decide (a.2.1 ≤ k)) - 1,
          hIlt⟩).2.1 = k ∧
          (LOut.get ⟨LOut.countP (fun a : Spike => decide (a.2.1 ≤ k)) - 1, hOlt⟩).2.1 = k
      · rw [if_pos hkeys]
        constructor
        · constructor
          · intro hcon
            exact absurd hcon (by simp)
          · intro hcon
            exact absurd ⟨hiffI.mp hkeys.1, hiffO.mp hkeys.2⟩ hcon
        · intro gap hgap
          have hgapv := Option.some_inj.mp hgap
          refine ⟨⟨_, LIn.get_mem _ _, _, LOut.get_mem _ _, hkeys.1, hkeys.2,
            hgapv.symm, hmaxI, hmaxO⟩, ?_⟩
          have hc := hCausal _ (LIn.get_mem _ _) _ (LOut.get_mem _ _)
            (by rw [hkeys.1, hkeys.2])
          rw [← hgapv]
          linarith
      · rw [if_neg hkeys]
        refine ⟨⟨fun _ => ?_, fun _ => rfl⟩, fun gap hgap => absurd hgap (by simp)⟩
        intro ⟨hA, hB⟩
        exact hkeys ⟨hiffI.mpr hA, hiffO.mpr hB⟩

/-- Successful `calculateLatencies` in explicit form. -/
lemma calculateLatencies_eq_some (a : NetworkAnalysis) (LIn LOut : List Spike)
    (hLIn : flaten a.inputTimes a.inputIndices true = some LIn)
    (hLOut : flaten a.outputTimes a.outputIndices true = some LOut)
    (hne : LIn ≠ []) :
    calculateLatencies a =
      some ((List.range ((LIn.map (fun x => x.2.1)).foldr max 0 + 1)).map
        (latEntry LIn LOut)) := by
  unfold calculateLatencies
  rw [hLIn, hLOut]
  dsimp only
  rw [if_neg (by simpa [List.isEmpty_iff] using hne)]

/-- C3: for an analysis unit whose flattened, time-sorted spike records have
non-decreasing sample indices and are causally consistent (inputs of a sample
precede its matched outputs), the per-sample latency entry is the `+infinity`
sentinel (`none`) exactly when the sample has no input spike or no matched
output spike, and is otherwise the non-negative gap between the latest input
spike time and the latest matched output spike time of that sample. -/
theorem C3_latency_spec (a : NetworkAnalysis) (res : List (Option ℚ))
    (hres : calculateLatencies a = some res)
    (LIn LOut : List Spike)
    (hLIn : flaten a.inputTimes a.inputIndices true = some LIn)
    (hLOut : flaten a.outputTimes a.outputIndices true = some LOut)
    (hMonoIn : LIn.Pairwise (fun x y => x.2.1 ≤ y.2.1))
    (hMonoOut : LOut.Pairwise (fun x y => x.2.1 ≤ y.2.1))
    (hCausal : ∀ bi ∈ LIn, ∀ bo ∈ LOut, bi.2.1 = bo.2.1 → bi.1 ≤ bo.1) :
    ∀ (k : ℕ) (hk : k < res.length),
      (res.get ⟨k, hk⟩ = none ↔
        ¬((∃ b ∈ LIn, b.2.1 = k) ∧ (∃ b ∈ LOut, b.2.1 = k))) ∧
      (∀ gap : ℚ, res.get ⟨k, hk⟩ = some gap →
        (∃ bi ∈ LIn, ∃ bo ∈ LOut, bi.2.1 = k ∧ bo.2.1 = k ∧
          gap = bo.1 - bi.1 ∧
          (∀ b ∈ LIn, b.2.1 = k → b.1 ≤ bi.1) ∧
          (∀ b ∈ LOut, b.2.1 = k → b.1 ≤ bo.1)) ∧ 0 ≤ gap) := by
  have hne : LIn ≠ [] := by
    intro hnil
    rw [calculateLatencies] at hres
    rw [hLIn, hLOut, hnil] at hres
    simp at hres
  have hform := calculateLatencies_eq_some a LIn LOut hLIn hLOut hne
  rw [hform] at hres
  obtain rfl := Option.some_inj.mp hres
  intro k hk
  have hklt : k < ((LIn.map (fun x => x.2.1)).foldr max 0 + 1) := by
    simpa using hk
  have hget : ((List.range ((LIn.map (fun x => x.2.1)).foldr max 0 + 1)).map
      (latEntry LIn LOut)).get ⟨k, hk⟩ = latEntry LIn LOut k := by
    simp
  rw [hget]
  exact latEntry_spec LIn LOut (flaten_sorted_lex _ _ _ hLIn)
    (flaten_sorted_lex _ _ _ hLOut) hMonoIn hMonoOut hCausal k

/-- C3, witness: samples 0 and 1 with inputs at 0 and 100 and matched outputs
at 3 and 103; both latencies are 3, and sample 1's entry satisfies the stated
specification. -/
theorem C3_latency_spec_witness :
    calculateLatencies ⟨[[0, 100]], [[0, 1]], [[3, 103]], [[0, 1]]⟩ =
      some [some 3, some 3] ∧
    ∀ (k : ℕ) (hk : k < [some (3 : ℚ), some 3].length),
      (([some (3 : ℚ), some 3].get ⟨k, hk⟩ = none ↔
        ¬((∃ b ∈ [((0 : ℚ), 0, 0), (100, 1, 0)], b.2.1 = k) ∧
          (∃ b ∈ [((3 : ℚ), 0, 0), (103, 1, 0)], b.2.1 = k))) ∧
      (∀ gap : ℚ, [some (3 : ℚ), some 3].get ⟨k, hk⟩ = some gap →
        (∃ bi ∈ [((0 : ℚ), 0, 0), (100, 1, 0)],
         ∃ bo ∈ [((3 : ℚ), 0, 0), (103, 1, 0)], bi.2.1 = k ∧ bo.2.1 = k ∧
          gap = bo.1 - bi.1 ∧
          (∀ b ∈ [((0 : ℚ), 0, 0), (100, 1, 0)], b.2.1 = k → b.1 ≤ bi.1) ∧
          (∀ b ∈ [((3 : ℚ), 0, 0), (103, 1, 0)], b.2.1 = k → b.1 ≤ bo.1)) ∧
          0 ≤ gap)) := by
  constructor
  · norm_num [calculateLatencies, flaten, flatPairs, latEntry, lexLE,
      List.range_succ]
  · exact C3_latency_spec ⟨[[0, 100]], [[0, 1]], [[3, 103]], [[0, 1]]⟩
      [some 3, some 3]
      (by norm_num [calculateLatencies, flaten, flatPairs, latEntry, lexLE,
        List.range_succ])
      [((0 : ℚ), 0, 0), (100, 1, 0)] [((3 : ℚ), 0, 0), (103, 1, 0)]
      rfl rfl (by decide) (by decide) (by decide)

/-- Under downward closure of `p`, `countP p` is the length of the maximal
`p`-prefix. -/
lemma countP_eq_length_takeWhile {α : Type} (p : α → Bool) :
    ∀ (L : List α), L.Pairwise (fun a b => p b = true → p a = true) →
      L.countP p = (L.takeWhile p).length
  | [], _ => rfl
  | x :: T, hdc => by
    have hT := hdc.of_cons
    have hhead : ∀ b ∈ T, p b = true → p x = true := (List.pairwise_cons.mp hdc).1
    rw [List.countP_cons]
    by_cases hpx : p x = true
    · rw [if_pos hpx, List.takeWhile_cons_of_pos hpx, List.length_cons,
        countP_eq_length_takeWhile p T hT]
    · have hTz : T.countP p = 0 := by
        rw [List.countP_eq_zero]
        intro b hb hpb
        exact hpx (hhead b hb hpb)
      rw [if_neg hpx, hTz, List.takeWhile_cons_of_neg hpx]
      rfl

/-- Taking the length of the `takeWhile` prefix recovers that prefix. -/
lemma take_length_takeWhile {α : Type} (q : α → Bool) (D : List α) :
    D.take (D.takeWhile q).length = D.takeWhile q := by
  have h := List.take_left (D.takeWhile q) (D.dropWhile q)
  rwa [List.takeWhile_append_dropWhile] at h

/-- Dropping the length of the `takeWhile` prefix leaves `dropWhile`. -/
lemma drop_length_takeWhile {α : Type} (q : α → Bool) (D : List α) :
    D.drop (D.takeWhile q).length = D.dropWhile q := by
  have h := List.drop_left (D.takeWhile q) (D.dropWhile q)
  rwa [List.takeWhile_append_dropWhile] at h

/-- Under downward closure, dropping `countP p` elements is `dropWhile p`. -/
lemma drop_countP_eq_dropWhile {α : Type} (p : α → Bool) (L : List α)
    (hdc : L.Pairwise (fun a b => p b = true → p a = true)) :
    L.drop (L.countP p) = L.dropWhile p := by
  rw [countP_eq_length_takeWhile p L hdc]
  exact drop_length_takeWhile p L

/-- After `dropWhile p`, no element satisfies a downward-closed `p`. -/
lemma dropWhile_all_not {α : Type} (p : α → Bool) :
    ∀ (L : List α), L.Pairwise (fun a b => p b = true → p a = true) →
      ∀ x ∈ L.dropWhile p, p x = false
  | [], _, x, hx => absurd hx (by simp)
  | a :: T, hdc, x, hx => by
    have hT := hdc.of_cons
    have hhead : ∀ b ∈ T, p b = true → p a = true := (List.pairwise_cons.mp hdc).1
    by_cases hpa : p a = true
    · rw [List.dropWhile_cons_of_pos hpa] at hx
      exact dropWhile_all_not p T hT x hx
    · rw [List.dropWhile_cons_of_neg hpa] at hx
      rcases List.mem_cons.mp hx with rfl | hxT
      · exact Bool.eq_false_iff.mpr hpa
      · exact Bool.eq_false_iff.mpr (fun hpx => hpa (hhead x hxT hpx))

/-- `takeWhile` of a weaker predicate decomposes across the `p`-split. -/
lemma takeWhile_weaken_split {α : Type} (p q : α → Bool)
    (himp : ∀ x, p x = true → q x = true) :
    ∀ (L : List α),
      L.takeWhile q = L.takeWhile p ++ (L.dropWhile p).takeWhile q
  | [] => rfl
  | x :: T => by
    by_cases hpx : p x = true
    · rw [List.takeWhile_cons_of_pos hpx, List.dropWhile_cons_of_pos hpx,
        List.takeWhile_cons_of_pos (himp x hpx), List.cons_append,
        takeWhile_weaken_split p q himp T]
    · rw [List.takeWhile_cons_of_neg hpx, List.dropWhile_cons_of_neg hpx,
        List.nil_append]

/-- The `bisect` window `[i0, i1)` of `calculate_output_matrix`, on a list
with non-decreasing sample keys, counts exactly the spikes of sample `k`. -/
lemma window_countP (L : List Spike)
    (hMono : L.Pairwise (fun x y : Spike => x.2.1 ≤ y.2.1)) (k : ℕ)
    (p : Spike → Bool) :
    ((L.drop (L.countP (fun x : Spike => decide (x.2.1 < k)))).take
        (L.countP (fun x : Spike => decide (x.2.1 ≤ k)) -
         L.countP (fun x : Spike => decide (x.2.1 < k)))).countP p =
      L.countP (fun x : Spike => decide (x.2.1 = k) && p x) := by
  have hdcLt : L.Pairwise (fun a b : Spike =>
      (fun x : Spike => decide (x.2.1 < k)) b = true →
      (fun x : Spike => decide (x.2.1 < k)) a = true) := by
    refine hMono.imp ?_
    intro a b hab
    simp only [decide_eq_true_eq]
    intro hb
    omega
  have hdcLe : L.Pairwise (fun a b : Spike =>
      (fun x : Spike => decide (x.2.1 ≤ k)) b = true →
      (fun x : Spike => decide (x.2.1 ≤ k)) a = true) := by
    refine hMono.imp ?_
    intro a b hab
    simp only [decide_eq_true_eq]
    intro hb
    omega
  set pLt : Spike → Bool := fun x => decide (x.2.1 < k) with hpLt
  set pLe : Spike → Bool := fun x => decide (x.2.1 ≤ k) with hpLe
  have hsplit : L.takeWhile pLe = L.takeWhile pLt ++ (L.dropWhile pLt).takeWhile pLe := by
    refine takeWhile_weaken_split pLt pLe ?_ L
    intro x
    simp only [hpLt, hpLe, decide_eq_true_eq]
    omega
  have hdrop : L.drop (L.countP pLt) = L.dropWhile pLt :=
    drop_countP_eq_dropWhile pLt L hdcLt
  have hlen : L.countP pLe - L.countP pLt = ((L.dropWhile pLt).takeWhile pLe).length := by
    rw [countP_eq_length_takeWhile pLe L hdcLe, countP_eq_length_takeWhile pLt L hdcLt,
      hsplit, List.length_append]
    omega
  rw [hdrop, hlen, take_length_takeWhile]
  -- window = takeWhile pLe (dropWhile pLt L); decompose L and count
  have hD : L.Pairwise (fun a b : Spike => pLe b = true → pLe a = true) := hdcLe
  have hDsub : (L.dropWhile pLt).Pairwise (fun a b : Spike => pLe b = true → pLe a = true) :=
    hD.sublist (List.dropWhile_sublist pLt)
  have hLdecomp : L = L.takeWhile pLt ++
      ((L.dropWhile pLt).takeWhile pLe ++ (L.dropWhile pLt).dropWhile pLe) := by
    rw [List.takeWhile_append_dropWhile, List.takeWhile_append_dropWhile]
  conv_rhs => rw [hLdecomp]
  rw [List.countP_append, List.countP_append]
  have h1 : (L.takeWhile pLt).countP (fun x : Spike => decide (x.2.1 = k) && p x) = 0 := by
    rw [List.countP_eq_zero]
    intro x hx
    have hxlt : pLt x = true := List.mem_takeWhile_imp hx
    simp only [hpLt, decide_eq_true_eq] at hxlt
    simp only [Bool.and_eq_true, decide_eq_true_eq]
    intro ⟨hxk, _⟩
    omega
  have h3 : ((L.dropWhile pLt).dropWhile pLe).countP
      (fun x : Spike => decide (x.2.1 = k) && p x) = 0 := by
    rw [List.countP_eq_zero]
    intro x hx
    have hxgt : pLe x = false := dropWhile_all_not pLe (L.dropWhile pLt) hDsub x hx
    simp only [hpLe, decide_eq_false_iff_not, decide_eq_true_eq] at hxgt
    simp only [Bool.and_eq_true, decide_eq_true_eq]
    intro ⟨hxk, _⟩
    omega
  have h2 : ((L.dropWhile pLt).takeWhile pLe).countP
      (fun x : Spike => decide (x.2.1 = k) && p x) =
      ((L.dropWhile pLt).takeWhile pLe).countP p := by
    apply List.countP_congr
    intro x hx
    have hxle : pLe x = true := List.mem_takeWhile_imp hx
    have hxmemD : x ∈ L.dropWhile pLt := (List.takeWhile_sublist pLe).mem hx
    have hxge : pLt x = false := dropWhile_all_not pLt L hdcLt x hxmemD
    simp only [hpLe, decide_eq_true_eq] at hxle
    simp only [hpLt, decide_eq_false_iff_not, decide_eq_true_eq] at hxge
    have hxk : x.2.1 = k := by omega
    simp [hxk]
  rw [h1, h2, h3]
  omega

/-- The `[bisect_left, bisect_right)` window count of
`calculate_output_matrix` for sample `k` and logical unit `j`. -/
def outWindowCount (LOut : List Spike) (s k j : ℕ) : ℕ :=
  ((LOut.drop (LOut.countP (fun x : Spike => decide (x.2.1 < k)))).take
    (LOut.countP (fun x : Spike => decide (x.2.1 ≤ k)) -
     LOut.countP (fun x : Spike => decide (x.2.1 < k)))).countP
    (fun x : Spike => decide (x.2.2 / s = j))

/-- On sample-monotone flattened output spikes the window count is the plain
per-sample, per-unit spike count. -/
lemma outWindowCount_eq (LOut : List Spike)
    (hMono : LOut.Pairwise (fun x y : Spike => x.2.1 ≤ y.2.1)) (s k j : ℕ) :
    outWindowCount LOut s k j =
      LOut.countP (fun x : Spike => decide (x.2.1 = k) && decide (x.2.2 / s = j)) := by
  unfold outWindowCount
  exact window_countP LOut hMono k _

/-- Successful `calculateOutputMatrix` in explicit form. -/
lemma calculateOutputMatrix_eq_some (a : NetworkAnalysis) (s : ℕ) (burst : ℚ)
    (LOut : List Spike)
    (hLOut : flaten a.outputTimes a.outputIndices true = some LOut)
    (hiI : a.inputIndices ≠ []) (hs : s ≠ 0) :
    calculateOutputMatrix a s burst =
      some ((List.range
          ((a.inputIndices.map (fun row => row.foldr max 0)).foldr max 0 + 1)).map
        (fun k =>
          (List.range (a.outputIndices.length / s)).map (fun j =>
            ((outWindowCount LOut s k j : ℚ) / burst)))) := by
  unfold calculateOutputMatrix
  rw [hLOut]
  dsimp only
  rw [if_neg (by simpa [List.isEmpty_iff] using hiI), if_neg hs]
  rfl

/-- C4 (amended): for every analysis unit whose flattened matched output
spikes have non-decreasing sample indices along time, multiplicity `s ≥ 1`
and `burst_size ≥ 1`, the reconstructed matrix entry at (sample `k`, output
unit `j`) is the count of matched output spikes of sample `k` on the `s`
neurons of logical unit `j`, divided by `burst_size` only — the code never
divides by the multiplicity `s`. -/
theorem C4_amended_no_multiplicity_division
    (a : NetworkAnalysis) (s : ℕ) (hs : 0 < s) (outputBurst : ℚ)
    (_hb : 1 ≤ outputBurst)
    (M : List (List ℚ)) (hM : calculateOutputMatrix a s outputBurst = some M)
    (LOut : List Spike)
    (hLOut : flaten a.outputTimes a.outputIndices true = some LOut)
    (hMono : LOut.Pairwise (fun x y : Spike => x.2.1 ≤ y.2.1)) :
    ∀ (k : ℕ) (hk : k < M.length) (j : ℕ) (hj : j < (M.get ⟨k, hk⟩).length),
      (M.get ⟨k, hk⟩).get ⟨j, hj⟩ =
        ((LOut.countP (fun x : Spike =>
            decide (x.2.1 = k) && decide (x.2.2 / s = j))) : ℚ) / outputBurst := by
  have hiI : a.inputIndices ≠ [] := by
    intro hnil
    unfold calculateOutputMatrix at hM
    rw [hLOut] at hM
    dsimp only at hM
    rw [hnil] at hM
    simp at hM
  have hform := calculateOutputMatrix_eq_some a s outputBurst LOut hLOut hiI (by omega)
  rw [hform] at hM
  obtain rfl := Option.some_inj.mp hM
  intro k hk j hj
  simp only [List.get_eq_getElem, List.getElem_map, List.getElem_range]
  rw [outWindowCount_eq LOut hMono s k j]

/-- C4 amended, witness: multiplicity 2, burst size 1, two matched spikes of
sample 0 on the two neurons of unit 0: the entry is `2 / 1`, the raw count
divided by the burst size alone. -/
theorem C4_amended_witness :
    (0 : ℕ) < 2 ∧ (1 : ℚ) ≤ 1 ∧
    calculateOutputMatrix ⟨[[0]], [[0]], [[0], [0]], [[0], [0]]⟩ 2 1 =
      some [[2]] ∧
    ([[(2 : ℚ)]].get ⟨0, Nat.zero_lt_one⟩).get ⟨0, Nat.zero_lt_one⟩ =
      (([((0 : ℚ), 0, 0), (0, 0, 1)].countP (fun x : Spike =>
        decide (x.2.1 = 0) && decide (x.2.2 / 2 = 0))) : ℚ) / 1 := by
  have hM : calculateOutputMatrix ⟨[[0]], [[0]], [[0], [0]], [[0], [0]]⟩ 2 1 =
      some [[2]] := by
    norm_num [calculateOutputMatrix, flaten, flatPairs, lexLE, List.range_succ]
  refine ⟨by decide, by norm_num, hM, ?_⟩
  have h := C4_amended_no_multiplicity_division
    ⟨[[0]], [[0]], [[0], [0]], [[0], [0]]⟩ 2 (by decide) 1 (by norm_num)
    [[2]] hM [((0 : ℚ), 0, 0), (0, 0, 1)] rfl (by decide)
    0 Nat.zero_lt_one 0 Nat.zero_lt_one
  exact h

/-- The minimum of a list of rationals, `none` on the empty list
(`np.inf` in the code). -/
def listMinQ : List ℚ → Option ℚ
  | [] => none
  | t :: rest =>
    match listMinQ rest with
    | none => some t
    | some u => some (min t u)

/-- Merge of two optional minima. -/
def minMerge : Option ℚ → Option ℚ → Option ℚ
  | none, b => b
  | some x, none => some x
  | some x, some y => some (min x y)

lemma minMerge_none_right (a : Option ℚ) : minMerge a none = a := by
  cases a <;> rfl

lemma minMerge_comm (a b : Option ℚ) : minMerge a b = minMerge b a := by
  cases a <;> cases b <;> simp [minMerge, min_comm]

lemma minMerge_assoc (a b c : Option ℚ) :
    minMerge (minMerge a b) c = minMerge a (minMerge b c) := by
  cases a <;> cases b <;> cases c <;> simp [minMerge, min_assoc]

lemma listMinQ_cons (t : ℚ) (rest : List ℚ) :
    listMinQ (t :: rest) = minMerge (some t) (listMinQ rest) := by
  rw [listMinQ]
  cases listMinQ rest <;> rfl

lemma listMinQ_append (A B : List ℚ) :
    listMinQ (A ++ B) = minMerge (listMinQ A) (listMinQ B) := by
  induction A with
  | nil => rfl
  | cons t A2 ih =>
    rw [List.cons_append, listMinQ_cons, ih, listMinQ_cons, minMerge_assoc]

lemma listMinQ_eq_none_iff (L : List ℚ) : listMinQ L = none ↔ L = [] := by
  cases L with
  | nil => simp [listMinQ]
  | cons t rest =>
    rw [listMinQ_cons]
    cases h : listMinQ rest <;> simp [minMerge]

lemma listMinQ_mem (L : List ℚ) (mt : ℚ) (h : listMinQ L = some mt) : mt ∈ L := by
  induction L generalizing mt with
  | nil => simp [listMinQ] at h
  | cons t rest ih =>
    rw [listMinQ_cons] at h
    cases hr : listMinQ rest with
    | none =>
      rw [hr] at h
      simp only [minMerge, Option.some_inj] at h
      simp [← h]
    | some u =>
      rw [hr] at h
      simp only [minMerge, Option.some_inj] at h
      rcases min_cases t u with ⟨hmin, _⟩ | ⟨hmin, _⟩
      · rw [hmin] at h
        simp [← h]
      · rw [hmin] at h
        exact List.mem_cons_of_mem t (by rw [← h]; exact ih u hr)

lemma listMinQ_le (L : List ℚ) (mt : ℚ) (h : listMinQ L = some mt) :
    ∀ u ∈ L, mt ≤ u := by
  induction L generalizing mt with
  | nil => simp
  | cons t rest ih =>
    rw [listMinQ_cons] at h
    intro u hu
    cases hr : listMinQ rest with
    | none =>
      rw [hr] at h
      have hrest : rest = [] := (listMinQ_eq_none_iff rest).mp hr
      simp only [minMerge, Option.some_inj] at h
      rcases List.mem_cons.mp hu with rfl | hm
      · exact le_of_eq h.symm
      · rw [hrest] at hm
        simp at hm
    | some v =>
      rw [hr] at h
      simp only [minMerge, Option.some_inj] at h
      rcases List.mem_cons.mp hu with rfl | hm
      · rw [← h]
        exact min_le_left _ _
      · have := ih v hr u hm
        rw [← h]
        calc min t v ≤ v := min_le_right _ _
        _ ≤ u := this

/-- `updMin` is the merge of the accumulator with the train's minimum. -/
lemma updMin_eq (mo : Option ℚ) (l : List ℚ) :
    updMin mo l = minMerge mo (listMinQ l) := by
  induction l generalizing mo with
  | nil => cases mo <;> rfl
  | cons t rest ih =>
    rw [listMinQ_cons, ← minMerge_assoc]
    rw [updMin, List.foldl_cons]
    have hstep : (match mo with
        | none => some t
        | some u => some (min u t)) = minMerge mo (some t) := by
      cases mo <;> simp [minMerge, min_comm]
    rw [← updMin, ih, hstep]

/-- All spike times stored in the first `n` unit rows. -/
def allRowTimes (rows : ℕ → List (ℚ × ℕ)) (n : ℕ) : List ℚ :=
  ((List.range n).map (fun x => (rows x).map Prod.fst)).flatten

/-- Appending times to one tracked row merges its minimum in. -/
lemma listMinQ_flatten_update_list (F : ℕ → List ℚ) (ts : List ℚ) (x : ℕ) :
    ∀ (idx : List ℕ), idx.Nodup → x ∈ idx →
      listMinQ ((idx.map (fun y => if y = x then F y ++ ts else F y)).flatten) =
        minMerge (listMinQ ((idx.map F).flatten)) (listMinQ ts)
  | [], _, hmem => absurd hmem (by simp)
  | a :: rest, hnd, hmem => by
    rcases List.mem_cons.mp hmem with rfl | hxr
    · have hnot : ∀ y ∈ rest, ¬(y = x) := by
        intro y hy heq
        exact (List.nodup_cons.mp hnd).1 (heq ▸ hy)
      have hrw : rest.map (fun y => if y = x then F y ++ ts else F y) = rest.map F := by
        apply List.map_congr_left
        intro y hy
        rw [if_neg (hnot y hy)]
      rw [List.map_cons, if_pos rfl, List.flatten_cons, hrw,
        List.map_cons, List.flatten_cons]
      rw [listMinQ_append, listMinQ_append, listMinQ_append]
      rw [minMerge_assoc, minMerge_comm (listMinQ ts), ← minMerge_assoc]
    · have hxa : ¬(a = x) := by
        intro heq
        exact (List.nodup_cons.mp hnd).1 (heq ▸ hxr)
      rw [List.map_cons, if_neg hxa, List.flatten_cons, List.map_cons,
        List.flatten_cons]
      rw [listMinQ_append, listMinQ_append]
      rw [listMinQ_flatten_update_list F ts x rest (List.nodup_cons.mp hnd).2 hxr,
        minMerge_assoc]

/-- The row/minimum invariant carried through the encode loops: `min_t` is
the minimum over every spike time stored so far. -/
def MinInv (n : ℕ) (st : EncState) : Prop :=
  st.minT = listMinQ (allRowTimes st.rows n)

/-- A generated spike train has exactly `burst_size` spikes. -/
lemma buildSpikeTrain_length (p : InputParameters) (offs : ℚ) (R : ℕ → ℚ)
    (ctr : ℕ) : (buildSpikeTrain p offs R ctr).1.length = p.burst_size := by
  unfold buildSpikeTrain
  rw [List.length_insertionSort, List.length_map, List.length_range]

/-- Generic preservation of a predicate along `foldl`. -/
lemma foldl_pred_preserve {σ α : Type} (P : σ → Prop) (f : σ → α → σ) :
    ∀ (l : List α) (init : σ), P init → (∀ st a, a ∈ l → P st → P (f st a)) →
      P (l.foldl f init)
  | [], _, hinit, _ => hinit
  | a :: rest, init, hinit, hstep =>
    foldl_pred_preserve P f rest (f init a)
      (hstep init a (List.mem_cons_self a rest) hinit)
      (fun st b hb hP => hstep st b (List.mem_cons_of_mem a hb) hP)

/-- Generic establishment of a predicate along `foldl`: one element of the
list establishes it unconditionally, every later step preserves it. -/
lemma foldl_pred_establish {σ α : Type} (P : σ → Prop) (f : σ → α → σ)
    (l : List α) (a0 : α) (ha : a0 ∈ l)
    (hpres : ∀ st a, a ∈ l → P st → P (f st a))
    (hest : ∀ st, P (f st a0)) (init : σ) : P (l.foldl f init) := by
  obtain ⟨u, v, rfl⟩ := List.append_of_mem ha
  rw [List.foldl_append, List.foldl_cons]
  refine foldl_pred_preserve P f v _ (hest _) ?_
  intro st b hb hP
  exact hpres st b (by simp [hb]) hP

/-- The atomic write of one burst into row `i*s + j` preserves the
row/minimum invariant. -/
lemma encodeUnit_step_minInv (p : InputParameters) (s m : ℕ) (R : ℕ → ℚ)
    (i sIdx : ℕ) (t : ℚ) (st : EncState) (j : ℕ) (hi : i < m) (hj : j < s)
    (hinv : MinInv (s * m) st) :
    MinInv (s * m)
      (let tr := buildSpikeTrain p t R st.ctr
       EncState.mk
        (fun y =>
          if y = i * s + j then st.rows y ++ tr.1.map (fun tm => (tm, sIdx))
          else st.rows y)
        (updMin st.minT tr.1) tr.2) := by
  have hxlt : i * s + j < s * m := by
    have h1 : i * s + j < (i + 1) * s := by
      rw [Nat.add_mul, Nat.one_mul]
      omega
    have h2 : (i + 1) * s ≤ m * s := Nat.mul_le_mul_right s (by omega)
    rw [Nat.mul_comm s m]
    omega
  unfold MinInv at hinv ⊢
  show updMin st.minT (buildSpikeTrain p t R st.ctr).1 = _
  rw [updMin_eq, hinv]
  unfold allRowTimes
  have hfy : ∀ y : ℕ,
      ((if y = i * s + j then
          st.rows y ++ (buildSpikeTrain p t R st.ctr).1.map (fun tm => (tm, sIdx))
        else st.rows y).map Prod.fst) =
      (if y = i * s + j then
        (st.rows y).map Prod.fst ++ (buildSpikeTrain p t R st.ctr).1
       else (st.rows y).map Prod.fst) := by
    intro y
    by_cases hy : y = i * s + j
    · rw [if_pos hy, if_pos hy, List.map_append, List.map_map]
      congr 1
      exact List.map_id _
    · rw [if_neg hy, if_neg hy]
  have hmc : (List.range (s * m)).map (fun y =>
      ((if y = i * s + j then
          st.rows y ++ (buildSpikeTrain p t R st.ctr).1.map (fun tm => (tm, sIdx))
        else st.rows y).map Prod.fst)) =
      (List.range (s * m)).map (fun y =>
        (if y = i * s + j then
          (st.rows y).map Prod.fst ++ (buildSpikeTrain p t R st.ctr).1
         else (st.rows y).map Prod.fst)) := by
    apply List.map_congr_left
    intro y _
    exact hfy y
  rw [hmc]
  rw [listMinQ_flatten_update_list (fun y => (st.rows y).map Prod.fst)
    (buildSpikeTrain p t R st.ctr).1 (i * s + j) (List.range (s * m))
    (List.nodup_range _) (List.mem_range.mpr hxlt)]

/-- `encodeUnit` preserves the row/minimum invariant. -/
lemma encodeUnit_minInv (p : InputParameters) (s m : ℕ) (R : ℕ → ℚ)
    (i sIdx : ℕ) (t : ℚ) (st : EncState) (hi : i < m)
    (hinv : MinInv (s * m) st) :
    MinInv (s * m) (encodeUnit p s R i sIdx t st) := by
  unfold encodeUnit
  refine foldl_pred_preserve (MinInv (s * m)) _ _ _ hinv ?_
  intro st2 j hj hP
  exact encodeUnit_step_minInv p s m R i sIdx t st2 j hi (List.mem_range.mp hj) hP

/-- `encodeSample` preserves the row/minimum invariant. -/
lemma encodeSample_minInv (p : InputParameters) (s m : ℕ) (R : ℕ → ℚ)
    (X : List (List ℕ)) (l sIdx : ℕ) (t : ℚ) (st : EncState)
    (hinv : MinInv (s * m) st) :
    MinInv (s * m) (encodeSample p s m R X l sIdx t st) := by
  unfold encodeSample
  refine foldl_pred_preserve (MinInv (s * m)) _ _ _ hinv ?_
  intro st2 i hi hP
  by_cases hact : (X.getD l []).getD i 0 ≠ 0
  · rw [if_pos hact]
    exact encodeUnit_minInv p s m R i sIdx t st2 (List.mem_range.mp hi) hP
  · rw [if_neg hact]
    exact hP

/-- `encodeBlock` preserves the row/minimum invariant. -/
lemma encodeBlock_minInv (p : InputParameters) (s m k : ℕ) (delay : ℚ)
    (R : ℕ → ℚ) (X : List (List ℕ)) (acc : EncState × ℚ × ℕ)
    (hinv : MinInv (s * m) acc.1) :
    MinInv (s * m) (encodeBlock p s m k delay R X acc).1 := by
  unfold encodeBlock
  refine foldl_pred_preserve
    (fun st : EncState × ℚ × ℕ => MinInv (s * m) st.1) _ _ _ hinv ?_
  intro st2 l _ hP
  exact encodeSample_minInv p s m R X l st2.2.2 st2.2.1 st2.1 hP

/-- `encodeAll` satisfies the row/minimum invariant: `min_t` is the minimum
over every stored spike time. -/
lemma encodeAll_minInv (params : List InputParameters) (s m k : ℕ) (delay : ℚ)
    (R : ℕ → ℚ) (X : List (List ℕ)) :
    MinInv (s * m) (encodeAll params s m k delay R X) := by
  unfold encodeAll
  have hinit : MinInv (s * m) (⟨fun _ => [], none, 0⟩ : EncState) := by
    unfold MinInv allRowTimes
    have : (List.range (s * m)).map
        (fun x => ((fun _ => ([] : List (ℚ × ℕ))) x).map Prod.fst) =
        List.replicate (s * m) [] := by
      rw [List.eq_replicate_iff]
      constructor
      · simp
      · intro b hb
        simp only [List.mem_map] at hb
        obtain ⟨y, _, rfl⟩ := hb
        rfl
    rw [this]
    clear this
    induction (s * m) with
    | zero => rfl
    | succ n2 ih => simpa [List.replicate] using ih
  refine foldl_pred_preserve (fun st : EncState × ℚ × ℕ => MinInv (s * m) st.1)
    _ _ _ hinit ?_
  intro st2 p _ hP
  exact encodeBlock_minInv p s m k delay R X st2 hP

/-- Once a minimum is tracked, it never disappears. -/
lemma updMin_ne_none_of_ne_none (mo : Option ℚ) (l : List ℚ) (h : mo ≠ none) :
    updMin mo l ≠ none := by
  rw [updMin_eq]
  cases mo with
  | none => exact absurd rfl h
  | some u => cases listMinQ l <;> simp [minMerge]

/-- A nonempty train always produces a tracked minimum. -/
lemma updMin_ne_none_of_ne_nil (mo : Option ℚ) (l : List ℚ) (h : l ≠ []) :
    updMin mo l ≠ none := by
  rw [updMin_eq]
  cases hl : listMinQ l with
  | none => exact absurd ((listMinQ_eq_none_iff l).mp hl) h
  | some u => cases mo <;> simp [minMerge]

/-- `encodeUnit` preserves a tracked minimum. -/
lemma encodeUnit_someMin (p : InputParameters) (s : ℕ) (R : ℕ → ℚ)
    (i sIdx : ℕ) (t : ℚ) (st : EncState) (h : st.minT ≠ none) :
    (encodeUnit p s R i sIdx t st).minT ≠ none := by
  unfold encodeUnit
  refine foldl_pred_preserve (fun st2 : EncState => st2.minT ≠ none) _ _ _ h ?_
  intro st2 j _ hP
  exact updMin_ne_none_of_ne_none _ _ hP

/-- With a positive burst size and at least one redundant source row,
`encodeUnit` establishes a tracked minimum. -/
lemma encodeUnit_someMin_est (p : InputParameters) (s : ℕ) (R : ℕ → ℚ)
    (i sIdx : ℕ) (t : ℚ) (st : EncState) (hs : 0 < s) (hb : 0 < p.burst_size) :
    (encodeUnit p s R i sIdx t st).minT ≠ none := by
  unfold encodeUnit
  refine foldl_pred_establish (fun st2 : EncState => st2.minT ≠ none) _ _ 0
    (List.mem_range.mpr hs) ?_ ?_ st
  · intro st2 j _ hP
    exact updMin_ne_none_of_ne_none _ _ hP
  · intro st2
    refine updMin_ne_none_of_ne_nil _ _ ?_
    intro hnil
    have := buildSpikeTrain_length p t R st2.ctr
    rw [hnil] at this
    simp at this
    omega

/-- `encodeSample` preserves a tracked minimum. -/
lemma encodeSample_someMin (p : InputParameters) (s m : ℕ) (R : ℕ → ℚ)
    (X : List (List ℕ)) (l sIdx : ℕ) (t : ℚ) (st : EncState)
    (h : st.minT ≠ none) :
    (encodeSample p s m R X l sIdx t st).minT ≠ none := by
  unfold encodeSample
  refine foldl_pred_preserve (fun st2 : EncState => st2.minT ≠ none) _ _ _ h ?_
  intro st2 i _ hP
  by_cases hact : (X.getD l []).getD i 0 ≠ 0
  · rw [if_pos hact]
    exact encodeUnit_someMin p s R i sIdx t st2 hP
  · rw [if_neg hact]
    exact hP

/-- An active bit in a processed sample establishes a tracked minimum. -/
lemma encodeSample_someMin_est (p : InputParameters) (s m : ℕ) (R : ℕ → ℚ)
    (X : List (List ℕ)) (l sIdx : ℕ) (t : ℚ) (st : EncState)
    (hs : 0 < s) (hb : 0 < p.burst_size)
    (i0 : ℕ) (hi0 : i0 < m) (hact : (X.getD l []).getD i0 0 ≠ 0) :
    (encodeSample p s m R X l sIdx t st).minT ≠ none := by
  unfold encodeSample
  refine foldl_pred_establish (fun st2 : EncState => st2.minT ≠ none) _ _ i0
    (List.mem_range.mpr hi0) ?_ ?_ st
  · intro st2 i _ hP
    by_cases ha : (X.getD l []).getD i 0 ≠ 0
    · rw [if_pos ha]
      exact encodeUnit_someMin p s R i sIdx t st2 hP
    · rw [if_neg ha]
      exact hP
  · intro st2
    rw [if_pos hact]
    exact encodeUnit_someMin_est p s R i0 sIdx t st2 hs hb

/-- `encodeBlock` preserves a tracked minimum. -/
lemma encodeBlock_someMin (p : InputParameters) (s m k : ℕ) (delay : ℚ)
    (R : ℕ → ℚ) (X : List (List ℕ)) (acc : EncState × ℚ × ℕ)
    (h : acc.1.minT ≠ none) :
    (encodeBlock p s m k delay R X acc).1.minT ≠ none := by
  unfold encodeBlock
  refine foldl_pred_preserve
    (fun st : EncState × ℚ × ℕ => st.1.minT ≠ none) _ _ _ h ?_
  intro st2 l _ hP
  exact encodeSample_someMin p s m R X l st2.2.2 st2.2.1 st2.1 hP

/-- An active bit among the processed samples establishes a tracked minimum
for a whole block. -/
lemma encodeBlock_someMin_est (p : InputParameters) (s m k : ℕ) (delay : ℚ)
    (R : ℕ → ℚ) (X : List (List ℕ)) (acc : EncState × ℚ × ℕ)
    (hs : 0 < s) (hb : 0 < p.burst_size)
    (l0 : ℕ) (hl0 : l0 < k) (i0 : ℕ) (hi0 : i0 < m)
    (hact : (X.getD l0 []).getD i0 0 ≠ 0) :
    (encodeBlock p s m k delay R X acc).1.minT ≠ none := by
  unfold encodeBlock
  refine foldl_pred_establish
    (fun st : EncState × ℚ × ℕ => st.1.minT ≠ none) _ _ l0
    (List.mem_range.mpr hl0) ?_ ?_ acc
  · intro st2 l _ hP
    exact encodeSample_someMin p s m R X l st2.2.2 st2.2.1 st2.1 hP
  · intro st2
    exact encodeSample_someMin_est p s m R X l0 st2.2.2 st2.2.1 st2.1 hs hb
      i0 hi0 hact

/-- With a positive multiplicity, positive burst sizes, a nonempty parameter
list, and at least one active bit among the first `k` samples, `encodeAll`
tracks a minimum spike time. -/
lemma encodeAll_someMin (params : List InputParameters) (s m k : ℕ)
    (delay : ℚ) (R : ℕ → ℚ) (X : List (List ℕ))
    (hs : 0 < s) (hb : ∀ p ∈ params, 0 < p.burst_size)
    (hparams : params ≠ [])
    (l0 : ℕ) (hl0 : l0 < k) (i0 : ℕ) (hi0 : i0 < m)
    (hact : (X.getD l0 []).getD i0 0 ≠ 0) :
    (encodeAll params s m k delay R X).minT ≠ none := by
  unfold encodeAll
  cases params with
  | nil => exact absurd rfl hparams
  | cons p0 rest =>
    refine foldl_pred_establish
      (fun st : EncState × ℚ × ℕ => st.1.minT ≠ none) _ _ p0
      (List.mem_cons_self _ _) ?_ ?_ _
    · intro st2 p _ hP
      exact encodeBlock_someMin p s m k delay R X st2 hP
    · intro st2
      exact encodeBlock_someMin_est p0 s m k delay R X st2 hs
        (hb p0 (List.mem_cons_self _ _)) l0 hl0 i0 hi0 hact

/-- The per-unit result row of `build_input`: shift all stored times so the
earliest lands on `time_offs`, then sort the row by time, carrying the sample
indices along. -/
def finalRow (st : EncState) (timeOffs : ℚ) (x : ℕ) : List (ℚ × ℕ) :=
  List.insertionSort pairLE ((st.rows x).map (fun a =>
    (match st.minT with
     | none => a.1
     | some mt => a.1 - mt + timeOffs, a.2)))

/-- `build_input` with the default `k = -1` (all samples), in explicit form. -/
lemma buildInput_default_eq (X : List (List ℕ)) (m s : ℕ) (timeOffs : ℚ)
    (params : List InputParameters) (delay : ℚ) (R : ℕ → ℚ)
    (hm : 0 < m) (hN : 0 < X.length)
    (hb : ∀ p ∈ params, 0 < p.burst_size) :
    buildInput X m s (-1) timeOffs params delay R =
      some ⟨(List.range (s * m)).map (fun x =>
              (finalRow (encodeAll params s m X.length delay R X) timeOffs x).map
                Prod.fst),
            (List.range (s * m)).map (fun x =>
              (finalRow (encodeAll params s m X.length delay R X) timeOffs x).map
                Prod.snd),
            (List.range params.length).map (fun q => (q + 1) * X.length)⟩ := by
  unfold buildInput
  dsimp only
  rw [if_pos (Or.inl (by norm_num : (-1 : ℤ) < 0))]
  rw [if_neg (by omega : ¬ m = 0)]
  rw [if_neg (by omega : ¬ X.length = 0)]
  rw [if_neg ?hguard]
  · rfl
  case hguard =>
    intro ⟨h1, _⟩
    rw [List.any_eq_true] at h1
    obtain ⟨p, hp, hb0⟩ := h1
    have := hb p hp
    simp only [decide_eq_true_eq] at hb0
    omega

/-- Zipping the two projections of a pair list recovers the list. -/
lemma zip_map_fst_snd {α β : Type} : ∀ (l : List (α × β)),
    (l.map Prod.fst).zip (l.map Prod.snd) = l
  | [] => rfl
  | a :: rest => by
    rw [List.map_cons, List.map_cons, List.zip_cons_cons, zip_map_fst_snd rest]

/-- C8: encoding a matrix with at least one set bit (positive multiplicity,
positive burst sizes, at least one parameter set, whole-matrix `k = -1`):
the minimum over all emitted spike times is exactly `time_offs`, every
per-unit spike-time list is sorted ascending, and zipping each unit's times
with its parallel sample-index list gives exactly (a permutation of) the
generated `(time, sample)` pairs shifted by the global minimum — the `i`-th
index labels the `i`-th time. -/
theorem C8_encoding_min_sorted
    (X : List (List ℕ)) (m s : ℕ) (timeOffs : ℚ) (params : List InputParameters)
    (delay : ℚ) (R : ℕ → ℚ)
    (hs : 0 < s) (hb : ∀ p ∈ params, 0 < p.burst_size) (hparams : params ≠ [])
    (l0 i0 : ℕ) (hl0 : l0 < X.length) (hi0 : i0 < m)
    (hact : (X.getD l0 []).getD i0 0 ≠ 0) :
    ∃ res mt, buildInput X m s (-1) timeOffs params delay R = some res ∧
      (encodeAll params s m X.length delay R X).minT = some mt ∧
      timeOffs ∈ res.times.flatten ∧
      (∀ t2 ∈ res.times.flatten, timeOffs ≤ t2) ∧
      (∀ x (hx : x < res.times.length), (res.times.get ⟨x, hx⟩).Sorted (· ≤ ·)) ∧
      (∀ x (hx : x < res.times.length) (hx2 : x < res.indices.length),
        ((res.times.get ⟨x, hx⟩).zip (res.indices.get ⟨x, hx2⟩)).Perm
          (((encodeAll params s m X.length delay R X).rows x).map
            (fun a => (a.1 - mt + timeOffs, a.2)))) := by
  have hres := buildInput_default_eq X m s timeOffs params delay R
    (by omega) (by omega) hb
  have hsome := encodeAll_someMin params s m X.length delay R X hs hb hparams
    l0 hl0 i0 hi0 hact
  obtain ⟨mt, hmt⟩ := Option.ne_none_iff_exists.mp hsome
  have hmt : (encodeAll params s m X.length delay R X).minT = some mt := hmt.symm
  have hinv := encodeAll_minInv params s m X.length delay R X
  unfold MinInv at hinv
  rw [hmt] at hinv
  have hmin : listMinQ
      (allRowTimes (encodeAll params s m X.length delay R X).rows (s * m)) =
      some mt := hinv.symm
  set st := encodeAll params s m X.length delay R X with hst
  -- the shifted final rows
  have hfinal : ∀ x, finalRow st timeOffs x =
      List.insertionSort pairLE ((st.rows x).map (fun a =>
        (a.1 - mt + timeOffs, a.2))) := by
    intro x
    unfold finalRow
    rw [hmt]
  refine ⟨_, mt, hres, hmt, ?_, ?_, ?_, ?_⟩
  · -- timeOffs is attained: the stored minimum shifts onto it
    have hmem := listMinQ_mem _ _ hmin
    unfold allRowTimes at hmem
    rw [List.mem_flatten] at hmem
    obtain ⟨row, hrow, hmtmem⟩ := hmem
    rw [List.mem_map] at hrow
    obtain ⟨x, hxr, rfl⟩ := hrow
    rw [List.mem_map] at hmtmem
    obtain ⟨a, ha, hafst⟩ := hmtmem
    rw [List.mem_flatten]
    refine ⟨(finalRow st timeOffs x).map Prod.fst, ?_, ?_⟩
    · rw [List.mem_map]
      exact ⟨x, by simpa using hxr, rfl⟩
    · rw [hfinal x]
      have hperm := (List.perm_insertionSort pairLE
        ((st.rows x).map (fun a => (a.1 - mt + timeOffs, a.2)))).map Prod.fst
      rw [hperm.mem_iff, List.map_map, List.mem_map]
      refine ⟨a, ha, ?_⟩
      simp only [Function.comp_apply]
      rw [hafst]
      ring
  · -- every emitted time is at least timeOffs
    intro t2 ht2
    rw [List.mem_flatten] at ht2
    obtain ⟨row, hrow, ht2m⟩ := ht2
    rw [List.mem_map] at hrow
    obtain ⟨x, hxr, rfl⟩ := hrow
    rw [hfinal x] at ht2m
    have hperm := (List.perm_insertionSort pairLE
      ((st.rows x).map (fun a => (a.1 - mt + timeOffs, a.2)))).map Prod.fst
    rw [hperm.mem_iff, List.map_map, List.mem_map] at ht2m
    obtain ⟨a, ha, rfl⟩ := ht2m
    have hle : mt ≤ a.1 := by
      refine listMinQ_le _ _ hmin a.1 ?_
      unfold allRowTimes
      rw [List.mem_flatten]
      refine ⟨(st.rows x).map Prod.fst, ?_, ?_⟩
      · rw [List.mem_map]
        exact ⟨x, hxr, rfl⟩
      · rw [List.mem_map]
        exact ⟨a, ha, rfl⟩
    simp only [Function.comp_apply]
    linarith
  · -- each unit row is sorted ascending by time
    intro x hx
    have hget : (EncodeResult.times
        ⟨(List.range (s * m)).map (fun x =>
            (finalRow st timeOffs x).map Prod.fst),
          (List.range (s * m)).map (fun x =>
            (finalRow st timeOffs x).map Prod.snd),
          (List.range params.length).map (fun q => (q + 1) * X.length)⟩).get
        ⟨x, hx⟩ = (finalRow st timeOffs x).map Prod.fst := by
      simp
    rw [hget]
    have hsorted : (finalRow st timeOffs x).Sorted pairLE :=
      List.sorted_insertionSort pairLE _
    exact List.Pairwise.map Prod.fst (fun a b hab => hab) hsorted
  · -- zipping times with indices recovers the shifted generated pairs
    intro x hx hx2
    have hget1 : (EncodeResult.times
        ⟨(List.range (s * m)).map (fun x =>
            (finalRow st timeOffs x).map Prod.fst),
          (List.range (s * m)).map (fun x =>
            (finalRow st timeOffs x).map Prod.snd),
          (List.range params.length).map (fun q => (q + 1) * X.length)⟩).get
        ⟨x, hx⟩ = (finalRow st timeOffs x).map Prod.fst := by
      simp
    have hget2 : (EncodeResult.indices
        ⟨(List.range (s * m)).map (fun x =>
            (finalRow st timeOffs x).map Prod.fst),
          (List.range (s * m)).map (fun x =>
            (finalRow st timeOffs x).map Prod.snd),
          (List.range params.length).map (fun q => (q + 1) * X.length)⟩).get
        ⟨x, hx2⟩ = (finalRow st timeOffs x).map Prod.snd := by
      simp
    rw [hget1, hget2, zip_map_fst_snd]
    rw [hfinal x]
    exact List.perm_insertionSort pairLE _

/-- C8, witness: the 1×1 matrix `[[1]]` encoded with the default parameters
and `time_offs = 5`. -/
theorem C8_encoding_min_sorted_witness :
    (0 : ℕ) < 1 ∧ (∀ p ∈ [defaultInput], 0 < p.burst_size) ∧
    ([defaultInput] : List InputParameters) ≠ [] ∧
    (0 : ℕ) < ([[1]] : List (List ℕ)).length ∧
    ((([[1]] : List (List ℕ)).getD 0 []).getD 0 0 ≠ 0) ∧
    (∃ res mt,
      buildInput [[1]] 1 1 (-1) 5 [defaultInput] 10 (fun _ => 0) = some res ∧
      (encodeAll [defaultInput] 1 1 ([[1]] : List (List ℕ)).length 10
        (fun _ => 0) [[1]]).minT = some mt ∧
      (5 : ℚ) ∈ res.times.flatten ∧
      (∀ t2 ∈ res.times.flatten, (5 : ℚ) ≤ t2) ∧
      (∀ x (hx : x < res.times.length),
        (res.times.get ⟨x, hx⟩).Sorted (· ≤ ·)) ∧
      (∀ x (hx : x < res.times.length) (hx2 : x < res.indices.length),
        ((res.times.get ⟨x, hx⟩).zip (res.indices.get ⟨x, hx2⟩)).Perm
          (((encodeAll [defaultInput] 1 1 ([[1]] : List (List ℕ)).length 10
              (fun _ => 0) [[1]]).rows x).map
            (fun a => (a.1 - mt + 5, a.2))))) :=
  ⟨by decide, by decide, by decide, by decide, by decide,
    C8_encoding_min_sorted [[1]] 1 1 5 [defaultInput] 10 (fun _ => 0)
      (by decide) (by decide) (by decide) 0 0 (by decide) (by decide)
      (by decide)⟩

/-- The jitter-free burst for one active bit: `burst_size` spikes spaced by
`isi` from the block offset, all labelled with the producing sample. -/
def trainPairs (p : InputParameters) (t : ℚ) (sIdx : ℕ) : List (ℚ × ℕ) :=
  (List.range p.burst_size).map (fun jb : ℕ => (t + (jb : ℚ) * p.isi, sIdx))

/-- With jitter disabled the spike train is the deterministic arithmetic
burst (already sorted for `isi ≥ 0`) and the generator is not consumed. -/
lemma buildSpikeTrain_sigma0 (p : InputParameters) (offs : ℚ) (R : ℕ → ℚ)
    (ctr : ℕ) (h1 : p.sigma_t = 0) (h2 : p.sigma_t_offs = 0) (hisi : 0 ≤ p.isi) :
    buildSpikeTrain p offs R ctr =
      ((List.range p.burst_size).map (fun i : ℕ => offs + (i : ℚ) * p.isi), ctr) := by
  unfold buildSpikeTrain
  have hn1 : ¬ (0 < p.sigma_t_offs) := by rw [h2]; exact lt_irrefl 0
  have hn2 : ¬ (0 < p.sigma_t) := by rw [h1]; exact lt_irrefl 0
  simp only [if_neg hn1, if_neg hn2]
  have hmap : (List.range p.burst_size).map
      (fun i : ℕ => offs + (i : ℚ) * p.isi + 0) =
      (List.range p.burst_size).map (fun i : ℕ => offs + (i : ℚ) * p.isi) := by
    apply List.map_congr_left
    intro i _
    ring
  rw [hmap]
  have hsorted : List.Sorted qLE
      ((List.range p.burst_size).map (fun i : ℕ => offs + (i : ℚ) * p.isi)) := by
    refine List.Pairwise.map _ ?_ (List.sorted_lt_range p.burst_size)
    intro a b hab
    show offs + (a : ℚ) * p.isi ≤ offs + (b : ℚ) * p.isi
    have hc : (a : ℚ) ≤ (b : ℚ) := by exact_mod_cast le_of_lt hab
    nlinarith
  rw [hsorted.insertionSort_eq]

/-- Whether sample row `l` has any active bit among the first `m` units. -/
def rowActive (X : List (List ℕ)) (m l : ℕ) : Bool :=
  (List.range m).any (fun i => decide ((X.getD l []).getD i 0 ≠ 0))

/-- The first active sample at or after `start`, scanning `fuel` rows. -/
def firstActiveFrom (X : List (List ℕ)) (m : ℕ) : ℕ → ℕ → ℕ
  | start, 0 => start
  | start, fuel + 1 =>
    if rowActive X m start then start else firstActiveFrom X m (start + 1) fuel

/-- The first sample with an active bit (`0` if none exists below `k`). -/
def firstActive (X : List (List ℕ)) (m k : ℕ) : ℕ :=
  firstActiveFrom X m 0 k

/-- Specification of the scan: if some row in `[start, start+fuel)` is
active, the scan returns the least such row. -/
lemma firstActiveFrom_spec (X : List (List ℕ)) (m : ℕ) :
    ∀ (fuel start : ℕ),
      (∃ l, start ≤ l ∧ l < start + fuel ∧ rowActive X m l = true) →
      (rowActive X m (firstActiveFrom X m start fuel) = true ∧
       start ≤ firstActiveFrom X m start fuel ∧
       firstActiveFrom X m start fuel < start + fuel ∧
       ∀ l, start ≤ l → rowActive X m l = true →
         firstActiveFrom X m start fuel ≤ l)
  | 0, start, hex => by
    obtain ⟨l, h1, h2, _⟩ := hex
    omega
  | fuel + 1, start, hex => by
    by_cases hact : rowActive X m start = true
    · rw [firstActiveFrom, if_pos hact]
      exact ⟨hact, le_refl _, by omega, fun l hl _ => hl⟩
    · rw [firstActiveFrom, if_neg hact]
      have hex2 : ∃ l, start + 1 ≤ l ∧ l < start + 1 + fuel ∧
          rowActive X m l = true := by
        obtain ⟨l, h1, h2, h3⟩ := hex
        refine ⟨l, ?_, by omega, h3⟩
        rcases Nat.eq_or_lt_of_le h1 with rfl | hlt
        · exact absurd h3 hact
        · omega
      obtain ⟨ha, hs, hb, hmin⟩ := firstActiveFrom_spec X m fuel (start + 1) hex2
      refine ⟨ha, by omega, by omega, ?_⟩
      intro l hl hact2
      rcases Nat.eq_or_lt_of_le hl with rfl | hlt
      · exact absurd hact2 hact
      · exact hmin l (by omega) hact2

/-- Specification of `firstActive` on `[0, k)`. -/
lemma firstActive_spec (X : List (List ℕ)) (m k : ℕ)
    (hex : ∃ l, l < k ∧ rowActive X m l = true) :
    rowActive X m (firstActive X m k) = true ∧
    firstActive X m k < k ∧
    ∀ l, rowActive X m l = true → firstActive X m k ≤ l := by
  obtain ⟨l, hl, ha⟩ := hex
  obtain ⟨h1, _, h3, h4⟩ := firstActiveFrom_spec X m k 0
    ⟨l, by omega, by omega, ha⟩
  exact ⟨h1, by simpa using h3, fun l2 ha2 => h4 l2 (by omega) ha2⟩

/-- Generalised multiplicity loop of `encodeUnit` (first `n ≤ s` redundant
rows), jitter-free: each row in the window `[i*s, i*s + n)` receives one
arithmetic burst. -/
lemma encodeUnit_go_sigma0 (p : InputParameters) (s : ℕ) (R : ℕ → ℚ)
    (i sIdx : ℕ) (t : ℚ)
    (h1 : p.sigma_t = 0) (h2 : p.sigma_t_offs = 0) (hisi : 0 ≤ p.isi) :
    ∀ (n : ℕ) (st : EncState) (y : ℕ),
      (((List.range n).foldl (fun st j =>
        let tr := buildSpikeTrain p t R st.ctr
        EncState.mk
          (fun y =>
            if y = i * s + j then st.rows y ++ tr.1.map (fun tm => (tm, sIdx))
            else st.rows y)
          (updMin st.minT tr.1) tr.2) st).rows y) =
      st.rows y ++
        (if i * s ≤ y ∧ y < i * s + n then trainPairs p t sIdx else [])
  | 0, st, y => by
    rw [if_neg (by omega)]
    simp
  | n + 1, st, y => by
    rw [List.range_succ, List.foldl_append, List.foldl_cons, List.foldl_nil]
    have htr := buildSpikeTrain_sigma0 p t R
      (((List.range n).foldl (fun st j =>
        let tr := buildSpikeTrain p t R st.ctr
        EncState.mk
          (fun y =>
            if y = i * s + j then st.rows y ++ tr.1.map (fun tm => (tm, sIdx))
            else st.rows y)
          (updMin st.minT tr.1) tr.2) st).ctr) h1 h2 hisi
    show (if y = i * s + n then _ ++ _ else _) = _
    rw [htr]
    by_cases hy : y = i * s + n
    · rw [if_pos hy, encodeUnit_go_sigma0 p s R i sIdx t h1 h2 hisi n st y,
        if_neg (by omega), if_pos (by omega), List.append_nil,
        List.append_cancel_left_eq]
      unfold trainPairs
      rw [List.map_map]
      rfl
    · rw [if_neg hy, encodeUnit_go_sigma0 p s R i sIdx t h1 h2 hisi n st y]
      by_cases hw : i * s ≤ y ∧ y < i * s + n
      · rw [if_pos hw, if_pos (by omega)]
      · rw [if_neg hw, if_neg (by omega)]

/-- `encodeUnit` with jitter disabled: rows `[i*s, i*s+s)` each gain one
burst of `trainPairs`. -/
lemma encodeUnit_rows_sigma0 (p : InputParameters) (s : ℕ) (R : ℕ → ℚ)
    (i sIdx : ℕ) (t : ℚ) (st : EncState)
    (h1 : p.sigma_t = 0) (h2 : p.sigma_t_offs = 0) (hisi : 0 ≤ p.isi) (y : ℕ) :
    (encodeUnit p s R i sIdx t st).rows y =
      st.rows y ++
        (if i * s ≤ y ∧ y < i * s + s then trainPairs p t sIdx else []) :=
  encodeUnit_go_sigma0 p s R i sIdx t h1 h2 hisi s st y

/-- `encodeUnit` with jitter disabled does not consume the generator. -/
lemma encodeUnit_ctr_sigma0 (p : InputParameters) (s : ℕ) (R : ℕ → ℚ)
    (i sIdx : ℕ) (t : ℚ)
    (h1 : p.sigma_t = 0) (h2 : p.sigma_t_offs = 0) (hisi : 0 ≤ p.isi) :
    ∀ (n : ℕ) (st : EncState),
      (((List.range n).foldl (fun st j =>
        let tr := buildSpikeTrain p t R st.ctr
        EncState.mk
          (fun y =>
            if y = i * s + j then st.rows y ++ tr.1.map (fun tm => (tm, sIdx))
            else st.rows y)
          (updMin st.minT tr.1) tr.2) st).ctr) = st.ctr
  | 0, st => rfl
  | n + 1, st => by
    rw [List.range_succ, List.foldl_append, List.foldl_cons, List.foldl_nil]
    have htr := buildSpikeTrain_sigma0 p t R
      (((List.range n).foldl (fun st j =>
        let tr := buildSpikeTrain p t R st.ctr
        EncState.mk
          (fun y =>
            if y = i * s + j then st.rows y ++ tr.1.map (fun tm => (tm, sIdx))
            else st.rows y)
          (updMin st.minT tr.1) tr.2) st).ctr) h1 h2 hisi
    show (buildSpikeTrain p t R _).2 = st.ctr
    rw [htr]
    exact encodeUnit_ctr_sigma0 p s R i sIdx t h1 h2 hisi n st

/-- Generalised unit loop of `encodeSample` (first `n ≤ m` units),
jitter-free: row `y` gains one burst exactly when its unit `y / s` is active
in sample `l`. -/
lemma encodeSample_go_sigma0 (p : InputParameters) (s : ℕ) (R : ℕ → ℚ)
    (X : List (List ℕ)) (l sIdx : ℕ) (t : ℚ)
    (h1 : p.sigma_t = 0) (h2 : p.sigma_t_offs = 0) (hisi : 0 ≤ p.isi)
    (hs : 0 < s) :
    ∀ (n : ℕ) (st : EncState) (y : ℕ),
      (((List.range n).foldl (fun st i =>
        if (X.getD l []).getD i 0 ≠ 0 then encodeUnit p s R i sIdx t st
        else st) st).rows y) =
      st.rows y ++
        (if y < n * s ∧ (X.getD l []).getD (y / s) 0 ≠ 0
         then trainPairs p t sIdx else [])
  | 0, st, y => by
    rw [if_neg (by omega)]
    simp
  | n + 1, st, y => by
    rw [List.range_succ, List.foldl_append, List.foldl_cons, List.foldl_nil]
    have hmul : (n + 1) * s = n * s + s := Nat.succ_mul n s
    have hih := encodeSample_go_sigma0 p s R X l sIdx t h1 h2 hisi hs n st y
    by_cases hact : (X.getD l []).getD n 0 ≠ 0
    · rw [if_pos hact,
        encodeUnit_rows_sigma0 p s R n sIdx t _ h1 h2 hisi y, hih,
        List.append_assoc, List.append_cancel_left_eq]
      rcases Nat.lt_or_ge y (n * s) with hy1 | hy1
      · have hU : (if n * s ≤ y ∧ y < n * s + s then trainPairs p t sIdx
            else []) = [] := if_neg (fun hcon => absurd hcon.1 (by omega))
        rw [hU, List.append_nil]
        by_cases hax : (X.getD l []).getD (y / s) 0 ≠ 0
        · rw [if_pos ⟨hy1, hax⟩, if_pos ⟨by omega, hax⟩]
        · rw [if_neg (by tauto), if_neg (by tauto)]
      · rcases Nat.lt_or_ge y (n * s + s) with hy2 | hy2
        · have hdiv : y / s = n := Nat.div_eq_of_lt_le hy1 (by omega)
          have hW : (if y < n * s ∧ (X.getD l []).getD (y / s) 0 ≠ 0
              then trainPairs p t sIdx else []) = [] :=
            if_neg (fun hcon => absurd hcon.1 (by omega))
          rw [hW, List.nil_append, if_pos ⟨hy1, hy2⟩,
            if_pos ⟨by omega, by rw [hdiv]; exact hact⟩]
        · have hW : (if y < n * s ∧ (X.getD l []).getD (y / s) 0 ≠ 0
              then trainPairs p t sIdx else []) = [] :=
            if_neg (fun hcon => absurd hcon.1 (by omega))
          have hU : (if n * s ≤ y ∧ y < n * s + s then trainPairs p t sIdx
              else []) = [] := if_neg (fun hcon => absurd hcon.2 (by omega))
          have hT : (if y < (n + 1) * s ∧ (X.getD l []).getD (y / s) 0 ≠ 0
              then trainPairs p t sIdx else []) = [] :=
            if_neg (fun hcon => absurd hcon.1 (by omega))
          rw [hW, hU, hT]
          rfl
    · rw [if_neg hact, hih, List.append_cancel_left_eq]
      rcases Nat.lt_or_ge y (n * s) with hy1 | hy1
      · by_cases hax : (X.getD l []).getD (y / s) 0 ≠ 0
        · rw [if_pos ⟨hy1, hax⟩, if_pos ⟨by omega, hax⟩]
        · rw [if_neg (by tauto), if_neg (by tauto)]
      · rcases Nat.lt_or_ge y (n * s + s) with hy2 | hy2
        · have hdiv : y / s = n := Nat.div_eq_of_lt_le hy1 (by omega)
          have hW : (if y < n * s ∧ (X.getD l []).getD (y / s) 0 ≠ 0
              then trainPairs p t sIdx else []) = [] :=
            if_neg (fun hcon => absurd hcon.1 (by omega))
          have hT : (if y < (n + 1) * s ∧ (X.getD l []).getD (y / s) 0 ≠ 0
              then trainPairs p t sIdx else []) = [] :=
            if_neg (fun hcon => absurd hcon.2 (by rw [hdiv]; tauto))
          rw [hW, hT]
        · have hW : (if y < n * s ∧ (X.getD l []).getD (y / s) 0 ≠ 0
              then trainPairs p t sIdx else []) = [] :=
            if_neg (fun hcon => absurd hcon.1 (by omega))
          have hT : (if y < (n + 1) * s ∧ (X.getD l []).getD (y / s) 0 ≠ 0
              then trainPairs p t sIdx else []) = [] :=
            if_neg (fun hcon => absurd hcon.1 (by omega))
          rw [hW, hT]

/-- `encodeSample` with jitter disabled, over all `m` units. -/
lemma encodeSample_rows_sigma0 (p : InputParameters) (s m : ℕ) (R : ℕ → ℚ)
    (X : List (List ℕ)) (l sIdx : ℕ) (t : ℚ) (st : EncState)
    (h1 : p.sigma_t = 0) (h2 : p.sigma_t_offs = 0) (hisi : 0 ≤ p.isi)
    (hs : 0 < s) (y : ℕ) :
    (encodeSample p s m R X l sIdx t st).rows y =
      st.rows y ++
        (if y < m * s ∧ (X.getD l []).getD (y / s) 0 ≠ 0
         then trainPairs p t sIdx else []) :=
  encodeSample_go_sigma0 p s R X l sIdx t h1 h2 hisi hs m st y

/-- The sample loop of `encodeBlock`, jitter-free: each processed sample `l`
appends (for active units) one burst at block offset `t0 + l * time_window`
labelled with sample `s0 + l`; the threaded offset and counter advance
linearly. -/
lemma blockFold_sigma0 (p : InputParameters) (s m : ℕ) (R : ℕ → ℚ)
    (X : List (List ℕ))
    (h1 : p.sigma_t = 0) (h2 : p.sigma_t_offs = 0) (hisi : 0 ≤ p.isi)
    (hs : 0 < s) :
    ∀ (n : ℕ) (st0 : EncState) (t0 : ℚ) (s0 : ℕ),
      (∀ y, (((List.range n).foldl (fun acc l =>
          (encodeSample p s m R X l acc.2.2 acc.2.1 acc.1,
           acc.2.1 + p.time_window, acc.2.2 + 1)) (st0, t0, s0)).1.rows y) =
        st0.rows y ++ ((List.range n).map (fun l =>
          if y < m * s ∧ (X.getD l []).getD (y / s) 0 ≠ 0
          then trainPairs p (t0 + (l : ℚ) * p.time_window) (s0 + l)
          else [])).flatten) ∧
      ((List.range n).foldl (fun acc l =>
          (encodeSample p s m R X l acc.2.2 acc.2.1 acc.1,
           acc.2.1 + p.time_window, acc.2.2 + 1)) (st0, t0, s0)).2.1 =
        t0 + (n : ℚ) * p.time_window ∧
      ((List.range n).foldl (fun acc l =>
          (encodeSample p s m R X l acc.2.2 acc.2.1 acc.1,
           acc.2.1 + p.time_window, acc.2.2 + 1)) (st0, t0, s0)).2.2 = s0 + n
  | 0, st0, t0, s0 => by
    refine ⟨fun y => by simp, by simp, by simp⟩
  | n + 1, st0, t0, s0 => by
    obtain ⟨ihrows, iht, ihs⟩ := blockFold_sigma0 p s m R X h1 h2 hisi hs n st0 t0 s0
    rw [List.range_succ]
    refine ⟨?_, ?_, ?_⟩
    · intro y
      rw [List.foldl_append, List.foldl_cons, List.foldl_nil]
      show (encodeSample p s m R X n _ _ _).rows y = _
      rw [encodeSample_rows_sigma0 p s m R X n _ _ _ h1 h2 hisi hs y,
        ihrows y, iht, ihs, List.map_append, List.flatten_append,
        List.append_assoc]
      simp
    · rw [List.foldl_append, List.foldl_cons, List.foldl_nil]
      show (_ + p.time_window) = _
      rw [iht]
      push_cast
      ring
    · rw [List.foldl_append, List.foldl_cons, List.foldl_nil]
      show (_ + 1) = _
      rw [ihs]
      omega

/-- `encodeAll` for a single jitter-free parameter set: the content of unit
row `y` is exactly one arithmetic burst per active sample, at block offset
`l * time_window`, labelled `l`. -/
lemma encodeAll_single_rows_sigma0 (p : InputParameters) (s m k : ℕ)
    (delay : ℚ) (R : ℕ → ℚ) (X : List (List ℕ))
    (h1 : p.sigma_t = 0) (h2 : p.sigma_t_offs = 0) (hisi : 0 ≤ p.isi)
    (hs : 0 < s) (y : ℕ) :
    (encodeAll [p] s m k delay R X).rows y =
      ((List.range k).map (fun l =>
        if y < m * s ∧ (X.getD l []).getD (y / s) 0 ≠ 0
        then trainPairs p ((l : ℚ) * p.time_window) l else [])).flatten := by
  obtain ⟨ihrows, _, _⟩ :=
    blockFold_sigma0 p s m R X h1 h2 hisi hs k ⟨fun _ => [], none, 0⟩ 0 0
  unfold encodeAll
  rw [List.foldl_cons, List.foldl_nil]
  unfold encodeBlock
  dsimp only
  rw [ihrows y]
  rw [List.nil_append]
  apply congrArg
  apply List.map_congr_left
  intro l _
  by_cases hcond : y < m * s ∧ (X.getD l []).getD (y / s) 0 ≠ 0
  · rw [if_pos hcond, if_pos hcond, zero_add, Nat.zero_add]
  · rw [if_neg hcond, if_neg hcond]

/-- `getD` through a map over `range`. -/
lemma getD_map_range {α : Type} (F : ℕ → α) (n i : ℕ) (hi : i < n) (d : α) :
    ((List.range n).map F).getD i d = F i := by
  simp [List.getD_eq_getElem?_getD, List.getElem?_map, List.getElem?_range, hi]

/-- Membership in a jitter-free encoded unit row. -/
lemma mem_encodeAll_rows_sigma0 (p : InputParameters) (s m k : ℕ)
    (delay : ℚ) (R : ℕ → ℚ) (X : List (List ℕ))
    (h1 : p.sigma_t = 0) (h2 : p.sigma_t_offs = 0) (hisi : 0 ≤ p.isi)
    (hs : 0 < s) (y : ℕ) (a : ℚ × ℕ) :
    a ∈ (encodeAll [p] s m k delay R X).rows y ↔
      ∃ l, l < k ∧ y < m * s ∧ (X.getD l []).getD (y / s) 0 ≠ 0 ∧
        ∃ jb, jb < p.burst_size ∧
          a = ((l : ℚ) * p.time_window + (jb : ℚ) * p.isi, l) := by
  rw [encodeAll_single_rows_sigma0 p s m k delay R X h1 h2 hisi hs y]
  rw [List.mem_flatten]
  constructor
  · rintro ⟨row, hrow, ham⟩
    rw [List.mem_map] at hrow
    obtain ⟨l, hl, rfl⟩ := hrow
    by_cases hcond : y < m * s ∧ (X.getD l []).getD (y / s) 0 ≠ 0
    · rw [if_pos hcond] at ham
      unfold trainPairs at ham
      rw [List.mem_map] at ham
      obtain ⟨jb, hjb, rfl⟩ := ham
      exact ⟨l, List.mem_range.mp hl, hcond.1, hcond.2, jb,
        List.mem_range.mp hjb, rfl⟩
    · rw [if_neg hcond] at ham
      exact absurd ham (by simp)
  · rintro ⟨l, hl, hc1, hc2, jb, hjb, rfl⟩
    refine ⟨trainPairs p ((l : ℚ) * p.time_window) l, ?_, ?_⟩
    · rw [List.mem_map]
      exact ⟨l, List.mem_range.mpr hl, by rw [if_pos ⟨hc1, hc2⟩]⟩
    · unfold trainPairs
      rw [List.mem_map]
      exact ⟨jb, List.mem_range.mpr hjb, rfl⟩

/-- Membership in `flatPairs` when both unit lists are maps over `range`. -/
lemma mem_flatPairs_map_range (F : ℕ → List ℚ) (G : ℕ → List ℕ) (n : ℕ)
    (a : Spike) :
    a ∈ flatPairs ((List.range n).map F) ((List.range n).map G) ↔
      ∃ x, x < n ∧ (a.1, a.2.1) ∈ (F x).zip (G x) ∧ a.2.2 = x := by
  unfold flatPairs
  rw [List.zip_map' F G]
  rw [List.mem_flatten]
  constructor
  · rintro ⟨row, hrow, ham⟩
    rw [List.mem_map] at hrow
    obtain ⟨e, he, rfl⟩ := hrow
    rw [List.mem_enum_iff_getElem?] at he
    rw [List.getElem?_map] at he
    by_cases hx : e.1 < n
    · rw [List.getElem?_range hx] at he
      have he2 : (F e.1, G e.1) = e.2 := Option.some_inj.mp he
      rw [List.mem_map] at ham
      obtain ⟨pr, hpr, rfl⟩ := ham
      rw [← he2] at hpr
      exact ⟨e.1, hx, hpr, rfl⟩
    · rw [List.getElem?_eq_none (by simpa using Nat.le_of_not_lt hx)] at he
      exact absurd he (by simp)
  · rintro ⟨x, hx, hpr, hx2⟩
    refine ⟨((F x).zip (G x)).map (fun pr => (pr.1, pr.2, x)), ?_, ?_⟩
    · rw [List.mem_map]
      refine ⟨(x, (F x, G x)), ?_, rfl⟩
      rw [List.mem_enum_iff_getElem?, List.getElem?_map, List.getElem?_range hx]
      rfl
    · rw [List.mem_map]
      refine ⟨(a.1, a.2.1), hpr, ?_⟩
      rw [← hx2]

/-- Membership in the pooled spike list produced by flattening the result of
a jitter-free single-parameter-set encoding: exactly the shifted arithmetic
burst spikes of the active bits. -/
lemma mem_flaten_buildInput_sigma0 (p : InputParameters) (m : ℕ)
    (timeOffs delay : ℚ) (R : ℕ → ℚ) (X : List (List ℕ)) (mt : ℚ)
    (h1 : p.sigma_t = 0) (h2 : p.sigma_t_offs = 0) (hisi : 0 ≤ p.isi)
    (hmt : (encodeAll [p] 1 m X.length delay R X).minT = some mt)
    (L : List Spike)
    (hL : flaten
      ((List.range (1 * m)).map (fun x =>
        (finalRow (encodeAll [p] 1 m X.length delay R X) timeOffs x).map
          Prod.fst))
      ((List.range (1 * m)).map (fun x =>
        (finalRow (encodeAll [p] 1 m X.length delay R X) timeOffs x).map
          Prod.snd)) false = some L)
    (a : Spike) :
    a ∈ L ↔ ∃ x, x < m ∧ ∃ l, l < X.length ∧
      (X.getD l []).getD x 0 ≠ 0 ∧ ∃ jb, jb < p.burst_size ∧
      a = ((l : ℚ) * p.time_window + (jb : ℚ) * p.isi - mt + timeOffs, l, x) := by
  set st := encodeAll [p] 1 m X.length delay R X with hst
  have hLval : L = List.insertionSort timeLE (flatPairs
      ((List.range (1 * m)).map (fun x => (finalRow st timeOffs x).map Prod.fst))
      ((List.range (1 * m)).map (fun x => (finalRow st timeOffs x).map Prod.snd))) := by
    unfold flaten at hL
    by_cases he : (((List.range (1 * m)).map (fun x =>
        (finalRow st timeOffs x).map Prod.fst))).isEmpty
    · rw [if_pos he] at hL
      exact absurd hL (by simp)
    · rw [if_neg he] at hL
      exact (Option.some_inj.mp hL).symm
  have hfinal : ∀ x, finalRow st timeOffs x =
      List.insertionSort pairLE ((st.rows x).map (fun q =>
        (q.1 - mt + timeOffs, q.2))) := by
    intro x
    unfold finalRow
    rw [hmt]
  rw [hLval, List.mem_insertionSort,
    mem_flatPairs_map_range (fun x => (finalRow st timeOffs x).map Prod.fst)
      (fun x => (finalRow st timeOffs x).map Prod.snd) (1 * m) a]
  constructor
  · rintro ⟨x, hx, hpr, hx2⟩
    rw [zip_map_fst_snd, hfinal x, List.mem_insertionSort, List.mem_map] at hpr
    obtain ⟨q, hq, hqe⟩ := hpr
    rw [hst, mem_encodeAll_rows_sigma0 p 1 m X.length delay R X h1 h2 hisi
      (by omega) x q] at hq
    obtain ⟨l, hl, hc1, hc2, jb, hjb, rfl⟩ := hq
    refine ⟨x, by omega, l, hl, by simpa [Nat.div_one] using hc2, jb, hjb, ?_⟩
    have ha1 : a.1 = (l : ℚ) * p.time_window + (jb : ℚ) * p.isi - mt + timeOffs := by
      have := congrArg Prod.fst hqe
      simpa using this.symm
    have ha21 : a.2.1 = l := by
      have := congrArg Prod.snd hqe
      simpa using this.symm
    have heta : a = (a.1, a.2.1, a.2.2) := rfl
    rw [heta, ha1, ha21, hx2]
  · rintro ⟨x, hx, l, hl, hc2, jb, hjb, rfl⟩
    refine ⟨x, by omega, ?_, rfl⟩
    rw [zip_map_fst_snd, hfinal x, List.mem_insertionSort, List.mem_map]
    refine ⟨((l : ℚ) * p.time_window + (jb : ℚ) * p.isi, l), ?_, rfl⟩
    rw [hst, mem_encodeAll_rows_sigma0 p 1 m X.length delay R X h1 h2 hisi
      (by omega) x _]
    exact ⟨l, hl, by omega, by simpa [Nat.div_one] using hc2, jb, hjb, rfl⟩

/-- C1, amended: for a matrix with at least one set bit, encoded with jitter
disabled, multiplicity 1, a single parameter set with positive `isi`,
positive `time_window`, burst span shorter than the time window, the
round-trip recovers the producing sample index for every pooled encoded
spike that either has a same-sample spike strictly earlier (every burst
spike but the first) or is globally earliest; the first spike of any later
sample instead recovers the latest strictly earlier spike's sample. -/
theorem C1_roundtrip_amended
    (p : InputParameters) (m : ℕ) (X : List (List ℕ)) (delay timeOffs : ℚ)
    (R : ℕ → ℚ)
    (h1 : p.sigma_t = 0) (h2 : p.sigma_t_offs = 0)
    (hisi : 0 < p.isi) (htw : 0 < p.time_window)
    (hspan : ((p.burst_size : ℚ) - 1) * p.isi < p.time_window)
    (hm : 0 < m) (hb : 0 < p.burst_size)
    (l0 i0 : ℕ) (hl0 : l0 < X.length) (hi0 : i0 < m)
    (hact : (X.getD l0 []).getD i0 0 ≠ 0)
    (times : List (List ℚ)) (indices : List (List ℕ)) (split : List ℕ)
    (hbuild : buildInput X m 1 (-1) timeOffs [p] delay R =
      some ⟨times, indices, split⟩)
    (L : List Spike) (hL : flaten times indices false = some L) :
    ∀ a ∈ L, ((∃ b ∈ L, b.2.1 = a.2.1 ∧ b.1 < a.1) ∨ (∀ b ∈ L, a.1 ≤ b.1)) →
      matchIndex L a.1 = a.2.1 := by
  have heq := buildInput_default_eq X m 1 timeOffs [p] delay R hm (by omega)
    (fun q hq => by rw [List.mem_singleton] at hq; subst hq; exact hb)
  rw [heq] at hbuild
  have hpay := Option.some_inj.mp hbuild
  obtain ⟨rfl, rfl, rfl⟩ := EncodeResult.mk.injEq _ _ _ _ _ _ |>.mp hpay
  have hmtne := encodeAll_someMin [p] 1 m X.length delay R X (by omega)
    (fun q hq => by rw [List.mem_singleton] at hq; subst hq; exact hb)
    (by simp) l0 hl0 i0 hi0 hact
  obtain ⟨mt, hmt⟩ := Option.ne_none_iff_exists'.mp hmtne
  have hmem := fun a => mem_flaten_buildInput_sigma0 p m timeOffs delay R X mt
    h1 h2 (le_of_lt hisi) hmt L hL a
  have hsort := flaten_sorted_time _ _ L hL
  intro a haL hcond
  have hane : L ≠ [] := fun h => by
    rw [h] at haL
    exact absurd haL (List.not_mem_nil a)
  obtain ⟨w, hwL, hwidx, hwlt, hwmin⟩ := matchIndex_spec L hsort a.1 hane
  obtain ⟨x, hx, l, hl, hactl, jb, hjb, hae⟩ := (hmem a).mp haL
  have hjbq : ∀ jb2 : ℕ, jb2 < p.burst_size →
      (jb2 : ℚ) * p.isi < p.time_window := by
    intro jb2 hjb2
    have hc : (jb2 : ℚ) + 1 ≤ (p.burst_size : ℚ) := by
      exact_mod_cast Nat.succ_le_of_lt hjb2
    have hmm := mul_le_mul_of_nonneg_right
      (by linarith : (jb2 : ℚ) ≤ (p.burst_size : ℚ) - 1) (le_of_lt hisi)
    linarith
  have hsample : ∀ (l1 jb1 l2 jb2 : ℕ), jb1 < p.burst_size →
      jb2 < p.burst_size →
      (l1 : ℚ) * p.time_window + (jb1 : ℚ) * p.isi ≤
        (l2 : ℚ) * p.time_window + (jb2 : ℚ) * p.isi →
      (l2 : ℚ) * p.time_window + (jb2 : ℚ) * p.isi <
        ((l1 : ℚ) + 1) * p.time_window →
      l2 = l1 := by
    intro l1 jb1 l2 jb2 hjb1 hjb2 hle hlt
    have hq1 := hjbq jb1 hjb1
    have hq2 := hjbq jb2 hjb2
    have h0a : (0 : ℚ) ≤ (jb1 : ℚ) * p.isi :=
      mul_nonneg (Nat.cast_nonneg _) (le_of_lt hisi)
    have h0b : (0 : ℚ) ≤ (jb2 : ℚ) * p.isi :=
      mul_nonneg (Nat.cast_nonneg _) (le_of_lt hisi)
    have hA : (l2 : ℚ) * p.time_window < ((l1 : ℚ) + 1) * p.time_window := by
      linarith
    have hB : (l1 : ℚ) * p.time_window < ((l2 : ℚ) + 1) * p.time_window := by
      have hr : ((l2 : ℚ) + 1) * p.time_window =
          (l2 : ℚ) * p.time_window + p.time_window := by ring
      linarith
    have hA2 : (l2 : ℚ) < (l1 : ℚ) + 1 := (mul_lt_mul_right htw).mp hA
    have hB2 : (l1 : ℚ) < (l2 : ℚ) + 1 := (mul_lt_mul_right htw).mp hB
    have hA3 : l2 < l1 + 1 := by exact_mod_cast hA2
    have hB3 : l1 < l2 + 1 := by exact_mod_cast hB2
    omega
  have ha21 : a.2.1 = l := by rw [hae]
  have ha1 : a.1 = (l : ℚ) * p.time_window + (jb : ℚ) * p.isi - mt + timeOffs := by
    rw [hae]
  rcases hcond with ⟨b, hbL, hbidx, hblt⟩ | hallge
  · obtain ⟨xb, hxb, lb, hlb, hactb, jbb, hjbb, hbe⟩ := (hmem b).mp hbL
    have hb21 : b.2.1 = lb := by rw [hbe]
    have hlbl : lb = l := by
      rw [hb21, ha21] at hbidx
      exact hbidx
    have hb1 : b.1 =
        (lb : ℚ) * p.time_window + (jbb : ℚ) * p.isi - mt + timeOffs := by
      rw [hbe]
    have hjblt : (jbb : ℚ) * p.isi < (jb : ℚ) * p.isi := by
      rw [hb1, ha1, hlbl] at hblt
      linarith
    have hjbblt : jbb < jb := by
      have hqlt : (jbb : ℚ) < (jb : ℚ) :=
        lt_of_mul_lt_mul_right hjblt (le_of_lt hisi)
      exact_mod_cast hqlt
    have hjb1 : 1 ≤ jb := by omega
    have hcmem : ((l : ℚ) * p.time_window + ((jb - 1 : ℕ) : ℚ) * p.isi - mt +
        timeOffs, l, x) ∈ L :=
      (hmem _).mpr ⟨x, hx, l, hl, hactl, jb - 1, by omega, rfl⟩
    have hcast : ((jb - 1 : ℕ) : ℚ) = (jb : ℚ) - 1 := by
      rw [Nat.cast_sub hjb1, Nat.cast_one]
    have hclt : (l : ℚ) * p.time_window + ((jb - 1 : ℕ) : ℚ) * p.isi - mt +
        timeOffs < a.1 := by
      rw [ha1, hcast]
      have hr : ((jb : ℚ) - 1) * p.isi = (jb : ℚ) * p.isi - p.isi := by ring
      linarith
    obtain ⟨hwlt1, hwmax⟩ := hwlt ⟨_, hcmem, hclt⟩
    have hcw : (l : ℚ) * p.time_window + ((jb - 1 : ℕ) : ℚ) * p.isi - mt +
        timeOffs ≤ w.1 := hwmax _ hcmem hclt
    obtain ⟨xw, hxw, lw, hlw, hactw, jbw, hjbw, hwe⟩ := (hmem w).mp hwL
    have hw1 : w.1 =
        (lw : ℚ) * p.time_window + (jbw : ℚ) * p.isi - mt + timeOffs := by
      rw [hwe]
    have hup : (lw : ℚ) * p.time_window + (jbw : ℚ) * p.isi <
        ((l : ℚ) + 1) * p.time_window := by
      have hq := hjbq jb hjb
      have hwa : (lw : ℚ) * p.time_window + (jbw : ℚ) * p.isi <
          (l : ℚ) * p.time_window + (jb : ℚ) * p.isi := by
        rw [hw1, ha1] at hwlt1
        linarith
      have hr : ((l : ℚ) + 1) * p.time_window =
          (l : ℚ) * p.time_window + p.time_window := by ring
      linarith
    have hlo : (l : ℚ) * p.time_window + ((jb - 1 : ℕ) : ℚ) * p.isi ≤
        (lw : ℚ) * p.time_window + (jbw : ℚ) * p.isi := by
      rw [hw1] at hcw
      linarith
    have hlwl : lw = l := hsample l (jb - 1) lw jbw (by omega) hjbw hlo hup
    have hw21 : w.2.1 = lw := by rw [hwe]
    rw [hwidx, hw21, hlwl, ha21]
  · have hwa := hwmin hallge a haL
    have haw := hallge w hwL
    have heq1 : w.1 = a.1 := le_antisymm hwa haw
    obtain ⟨xw, hxw, lw, hlw, hactw, jbw, hjbw, hwe⟩ := (hmem w).mp hwL
    have hw1 : w.1 =
        (lw : ℚ) * p.time_window + (jbw : ℚ) * p.isi - mt + timeOffs := by
      rw [hwe]
    have heqt : (lw : ℚ) * p.time_window + (jbw : ℚ) * p.isi =
        (l : ℚ) * p.time_window + (jb : ℚ) * p.isi := by
      rw [hw1, ha1] at heq1
      linarith
    have hup : (lw : ℚ) * p.time_window + (jbw : ℚ) * p.isi <
        ((l : ℚ) + 1) * p.time_window := by
      have hq := hjbq jb hjb
      have hr : ((l : ℚ) + 1) * p.time_window =
          (l : ℚ) * p.time_window + p.time_window := by ring
      linarith
    have hlwl : lw = l := hsample l jb lw jbw hjb hjbw (le_of_eq heqt.symm) hup
    have hw21 : w.2.1 = lw := by rw [hwe]
    rw [hwidx, hw21, hlwl, ha21]

/-- C1, witness for the amended theorem: the matrix `[[1]]` encoded with
burst size 2 produces spikes at times 0 and 1 labelled sample 0; looking up
time 1 (the second burst spike, which has a same-sample spike strictly
earlier) recovers sample 0. -/
theorem C1_amended_witness :
    matchIndex [((0 : ℚ), 0, 0), ((1 : ℚ), 0, 0)] 1 = 0 := by
  have hbuild : buildInput [[1]] 1 1 (-1) 0
      [(⟨2, 100, 1, 0, 0⟩ : InputParameters)] 0 (fun _ => 0) =
      some ⟨[[(0 : ℚ), 1]], [[0, 0]], [1]⟩ := by
    norm_num [buildInput, encodeAll, encodeBlock, encodeSample, encodeUnit,
      buildSpikeTrain, updMin, List.range_succ, List.insertionSort,
      List.orderedInsert, pairLE, qLE]
  have hL : flaten [[(0 : ℚ), 1]] [[0, 0]] false =
      some [((0 : ℚ), 0, 0), ((1 : ℚ), 0, 0)] := rfl
  exact C1_roundtrip_amended ⟨2, 100, 1, 0, 0⟩ 1 [[1]] 0 0 (fun _ => 0)
    rfl rfl (by norm_num) (by norm_num) (by norm_num) (by norm_num)
    (by norm_num) 0 0 (by norm_num) (by norm_num) (by decide)
    [[(0 : ℚ), 1]] [[0, 0]] [1] hbuild
    [((0 : ℚ), 0, 0), ((1 : ℚ), 0, 0)] hL
    ((1 : ℚ), 0, 0) (by simp)
    (Or.inl ⟨((0 : ℚ), 0, 0), List.mem_cons_self _ _, rfl, by norm_num⟩)

end PyNAM
